import Mathlib

/-!
Verification of the hook registration/dispatch engine (`hable`):
`src/hookable.ts` (class `Hookable`) and its utility callers
(`serial`, `serialCaller`, `parallelCaller`, `flatHooks`).

Callbacks are modelled as identity-comparable tokens (`Cb`); their runtime
behaviour (which registry mutations they perform, whether they return a
plain value or a promise that settles after some number of event-loop
turns, and their result value) is an arbitrary environment parameter.
Promise semantics (`.then`, `Promise.resolve`, `Promise.all`, the
microtask queue) are embedded as a small-step machine over an explicit
promise heap, so that invocation order and settlement order are visible
as a trace of events.
-/

set_option maxRecDepth 4000

namespace Hable

variable {V : Type}

/-- `DeprecatedHook` from types.ts: either a plain replacement-name string
or an object `{ to, message? }`. -/
inductive DeprecatedHook where
  | str (tgt : String)
  | obj (tgt : String) (message : Option String)
deriving DecidableEq

/-- The `to` field after normalising the string shorthand to an object
(`deprecatedHookObj = { to: deprecatedHook }`). -/
def depTo : DeprecatedHook → String
  | .str t => t
  | .obj t _ => t

/-- The `message` field; the string shorthand has none. -/
def depMessage : DeprecatedHook → Option String
  | .str _ => none
  | .obj _ m => m

/-- A callback value: an identity-comparable JS function reference.
`base id` is a user function; `onceWrap uid regName inner` is the `_fn`
closure created by `hookOnce` for user function `inner`, carrying the
deprecation-resolved name its captured unregister handle removes from
(hook() reassigns `name` to the resolved name before building the
closure), and a uid making distinct closures distinct values. -/
inductive Cb where
  | base (id : Nat)
  | onceWrap (uid : Nat) (regName : String) (inner : Nat)
deriving DecidableEq

/-- The `Hookable` instance state: `_hooks` (a JS object mapping a name to
an array of callbacks; an absent key is `none`) and `_deprecatedHooks`. -/
structure Hookable where
  hooks : String → Option (List Cb)
  deprecatedHooks : String → Option DeprecatedHook

/-- `new Hookable()`: both objects start empty. -/
def emptyHookable : Hookable := ⟨fun _ => none, fun _ => none⟩

/-- `array.splice(array.indexOf(fn), 1)` guarded by `idx !== -1`: remove
the first occurrence of `fn`, or leave the list unchanged when absent. -/
def removeFirst : List Cb → Cb → List Cb
  | [], _ => []
  | x :: xs, fn => if x = fn then xs else x :: removeFirst xs fn

/-- `Hookable.removeHook(name, fn)`: if an entry exists, splice out the
first occurrence of `fn` (if any), then delete the entry when the array
is left empty. -/
def removeHook (h : Hookable) (name : String) (fn : Cb) : Hookable :=
  match h.hooks name with
  | none => h
  | some l =>
    let l2 := removeFirst l fn
    if l2 = [] then
      { h with hooks := fun n => if n = name then none else h.hooks n }
    else
      { h with hooks := fun n => if n = name then some l2 else h.hooks n }

/-- `Hookable.deprecateHook(name, deprecated)`. -/
def deprecateHook (h : Hookable) (name : String) (d : DeprecatedHook) : Hookable :=
  { h with deprecatedHooks := fun n => if n = name then some d else h.deprecatedHooks n }

/-- The `while (this._deprecatedHooks[name])` loop of `hook()`, with fuel
against the circular chains the code itself would loop forever on.
Returns the final name together with `none` when no entry was traversed,
or `some m` where `m` is the last traversed entry's `message` field
(the last entry is the one left in `deprecatedHookObj`, and its `to`
equals the final name). -/
def resolveDep (dep : String → Option DeprecatedHook) :
    Nat → String → Option (Option String) → Option (String × Option (Option String))
  | fuel, name, acc =>
    match dep name, fuel with
    | none, _ => some (name, acc)
    | some _, 0 => none
    | some d, Nat.succ f => resolveDep dep f (depTo d) (some (depMessage d))

/-- The generated deprecation warning:
```${originalName} hook has been deprecated` + (to ? `, please use ${to}` : '')``
(an empty `to` is falsy, dropping the suffix). -/
def genWarning (originalName tgt : String) : String :=
  originalName ++ " hook has been deprecated" ++
    (if tgt = "" then "" else ", please use " ++ tgt)

/-- The warnings `console.warn` receives during one `hook()` call:
nothing when no deprecation entry was traversed, else the last entry's
custom message when that is truthy, else the generated message (a custom
message that is the empty string is falsy, so it also falls back). -/
def hookWarnings (originalName rname : String) : Option (Option String) → List String
  | none => []
  | some none => [genWarning originalName rname]
  | some (some msg) => if msg = "" then [genWarning originalName rname] else [msg]

/-- The unregister closure returned by `hook()`: it captures the resolved
`name` and a mutable `fn` reference that is nulled after first use. The
no-op closure returned for invalid arguments is the `fn := none` case. -/
structure Handle where
  name : String
  fn : Option Cb
deriving DecidableEq

/-- The no-op `() => {}` handle returned for invalid arguments. -/
def noopHandle : Handle := ⟨"", none⟩

/-- `Hookable.hook(name, fn)`: reject falsy names and non-function
callbacks; resolve the deprecation chain (warning as the code does);
append `fn` to the resolved name's array (`_hooks[name] = _hooks[name] || []`
then `push`); return the unregister closure. A chain the fuel cannot
resolve is the configuration error the code loops forever on; the model
returns the state unchanged there. Results: (state, handle, warnings). -/
def hook (h : Hookable) (name : String) (fnOpt : Option Cb) (fuel : Nat) :
    Hookable × Handle × List String :=
  match fnOpt with
  | none => (h, noopHandle, [])
  | some fn =>
    if name = "" then (h, noopHandle, [])
    else
      match resolveDep h.deprecatedHooks fuel name none with
      | none => (h, noopHandle, [])
      | some (rname, depInfo) =>
        let prev := (h.hooks rname).getD []
        ({ h with hooks := fun n => if n = rname then some (prev ++ [fn]) else h.hooks n },
         ⟨rname, some fn⟩,
         hookWarnings name rname depInfo)

/-- Calling the closure returned by `hook()`:
`if (fn) { this.removeHook(name, fn); fn = null }`. -/
def unregHandle (h : Hookable) (hd : Handle) : Hookable × Handle :=
  match hd.fn with
  | none => (h, hd)
  | some fn => (removeHook h hd.name fn, ⟨hd.name, none⟩)

/-- `Hookable.hookOnce(name, fn)`: registers the wrapper `_fn` via
`hook`. The wrapper value records the deprecation-resolved name because
the `_unreg` closure it calls captures `hook`'s local `name` after the
resolution loop reassigned it; `hook` re-resolves to the same name. -/
def hookOnce (h : Hookable) (name : String) (uid inner : Nat) (fuel : Nat) :
    Hookable × Handle × List String :=
  match resolveDep h.deprecatedHooks fuel name none with
  | none => (h, noopHandle, [])
  | some (rname, _) => hook h name (some (.onceWrap uid rname inner)) fuel

/-- Nested hook configuration objects (`NestedHooks`): a leaf callback, a
null/undefined leaf (silently ignored by `flatHooks`), or an object given
as a key/subtree list. -/
inductive NestedHooks where
  | cb (fn : Nat)
  | invalid
  | nil
  | cons (key : String) (sub : NestedHooks) (rest : NestedHooks)

/-- One `hooks[name] = subHook` assignment on the accumulator object:
overwrite an existing key, else append. -/
def setAssoc : List (String × Nat) → String → Nat → List (String × Nat)
  | [], k, v => [(k, v)]
  | (k0, v0) :: rest, k, v =>
    if k0 = k then (k0, v) :: rest else (k0, v0) :: setAssoc rest k v

/-- `flatHooks(configHooks, hooks, parentName)`: walk the keys; recurse
into objects with the colon-joined name, record function leaves, skip
other leaves. -/
def flatHooksAux : NestedHooks → Option String → List (String × Nat) → List (String × Nat)
  | .cb _, _, acc => acc
  | .invalid, _, acc => acc
  | .nil, _, acc => acc
  | .cons key sub rest, parent, acc =>
    let name := match parent with
      | none => key
      | some p => p ++ ":" ++ key
    let acc2 := match sub with
      | .cb f => setAssoc acc name f
      | .invalid => acc
      | .nil => flatHooksAux .nil (some name) acc
      | .cons k s r => flatHooksAux (.cons k s r) (some name) acc
    flatHooksAux rest parent acc2

/-- `flatHooks(configHooks)` with the default empty accumulator. -/
def flatHooks (cfg : NestedHooks) : List (String × Nat) :=
  flatHooksAux cfg none []

/-- `Hookable.addHooks(configHooks)`: flatten, register every pair via
`hook`, and collect the per-pair unregister closures (the returned bulk
closure just drains and calls each of them once). -/
def addHooks (h : Hookable) (cfg : NestedHooks) (fuel : Nat) :
    Hookable × List Handle × List String :=
  (flatHooks cfg).foldl
    (fun acc kv =>
      let (h2, hd, ws) := hook acc.1 kv.1 (some (.base kv.2)) fuel
      (h2, acc.2.1 ++ [hd], acc.2.2 ++ ws))
    (h, [], [])

/-- `Hookable.removeHooks(configHooks)`: flatten and `removeHook` every
pair. -/
def removeHooks (h : Hookable) (cfg : NestedHooks) : Hookable :=
  (flatHooks cfg).foldl (fun acc kv => removeHook acc kv.1 (.base kv.2)) h

/-! ### Callback behaviour and the promise machine -/

/-- A registry mutation a callback may perform while running (the
unregistration forms the spec reasons about during dispatch). -/
inductive RegOp where
  | remove (name : String) (cb : Cb)
deriving DecidableEq

/-- Behaviour of a user callback for one invocation: registry mutations
performed during the synchronous call, `none` for a plain synchronous
return or `some k` for a promise that settles after `k` further
event-loop turns, and the result value. -/
structure Beh (V : Type) where
  ops : List RegOp
  delay : Option Nat
  ret : V

/-- Behaviour environment: what each user function does per argument
list. -/
def Env (V : Type) : Type := Nat → List V → Beh V

/-- Behaviour of a callback value. The `hookOnce` wrapper first calls its
captured unregister handle — `removeHook(resolvedName, wrapper)` — and
then delegates to the inner function (nulling `_unreg`/`_fn` only drops
closure references; removing an already-removed callback is a no-op, so
the registry effect is exactly one `remove`). -/
def cbBeh (env : Env V) : Cb → List V → Beh V
  | .base i, args => env i args
  | .onceWrap uid rname inner, args =>
    let b := env inner args
    ⟨.remove rname (.onceWrap uid rname inner) :: b.ops, b.delay, b.ret⟩

/-- Apply one registry mutation. -/
def applyRegOp (h : Hookable) : RegOp → Hookable
  | .remove n c => removeHook h n c

/-- Apply a callback's registry mutations in order. -/
def applyRegOps (h : Hookable) (ops : List RegOp) : Hookable :=
  ops.foldl applyRegOp h

/-- A JS value as far as promises see it: `null`, a callback result, or
an array (the `Promise.all` result). -/
inductive JVal (V : Type) where
  | null
  | v (x : V)
  | arr (l : List (JVal V))

/-- A defunctionalised promise reaction: the `() => fn(task)` continuation
of the serial chain (invoke `cb` with `args`, resolve promise `target`
with the outcome), adoption of an inner promise's value by `target`, or a
`Promise.all` slot. -/
inductive Reaction (V : Type) where
  | thenRun (cb : Cb) (args : List V) (target : Nat)
  | link (target : Nat)
  | allSlot (g : Nat) (i : Nat)

/-- A promise: pending with its registered reactions in registration
order, or fulfilled. -/
inductive Prom (V : Type) where
  | pending (reactions : List (Reaction V))
  | fulfilled (v : JVal V)

/-- A microtask: a reaction fired with its promise's value, or the
countdown standing in for the external settlement of an asynchronous
callback's promise after `k` further turns. -/
inductive Job (V : Type) where
  | react (r : Reaction V) (v : JVal V)
  | settleLater (k : Nat) (pid : Nat) (v : V)

/-- `Promise.all` bookkeeping: the result slots and the combined result
promise. -/
structure GroupSt (V : Type) where
  slots : List (Option (JVal V))
  target : Nat

/-- Dispatch events: a callback invocation with its exact argument list,
and a promise settling. -/
inductive Ev (V : Type) where
  | call (cb : Cb) (args : List V)
  | settled (pid : Nat) (value : JVal V)

/-- Machine state: the `Hookable` instance, the promise heap, the
`Promise.all` groups, the microtask queue, and the event trace. -/
structure MState (V : Type) where
  hookable : Hookable
  proms : List (Prom V)
  groups : List (GroupSt V)
  queue : List (Job V)
  trace : List (Ev V)

/-- A fresh machine around a `Hookable` instance. -/
def mkM (h : Hookable) : MState V :=
  ⟨h, [], [], [], []⟩

/-- Allocate a promise; its id is its heap index. -/
def newProm (st : MState V) (p : Prom V) : MState V × Nat :=
  ({ st with proms := st.proms ++ [p] }, st.proms.length)

/-- Fulfil a pending promise: record the value, enqueue its reactions in
registration order, and emit the settlement event. Fulfilment of an
already-settled promise is ignored. -/
def fulfillProm (st : MState V) (pid : Nat) (jv : JVal V) : MState V :=
  match st.proms[pid]? with
  | some (.pending rs) =>
    { st with proms := st.proms.set pid (.fulfilled jv),
              queue := st.queue ++ rs.map (fun r => Job.react r jv),
              trace := st.trace ++ [.settled pid jv] }
  | _ => st

/-- Register a reaction on a promise: queued at once when the promise is
already fulfilled, else appended to its reaction list. -/
def addReaction (st : MState V) (pid : Nat) (r : Reaction V) : MState V :=
  match st.proms[pid]? with
  | some (.pending rs) => { st with proms := st.proms.set pid (.pending (rs ++ [r])) }
  | some (.fulfilled jv) => { st with queue := st.queue ++ [.react r jv] }
  | none => st

/-- `promise.then(() => fn(task))` for the serial chain: allocate the
derived promise and register the continuation. -/
def jsThen (st : MState V) (src : Nat) (cb : Cb) (args : List V) : MState V × Nat :=
  let (st2, target) := newProm st (.pending [])
  (addReaction st2 src (.thenRun cb args target), target)

/-- The immediate outcome of calling a callback: a plain value or a
promise. -/
inductive CallRes (V : Type) where
  | val (x : V)
  | prom (pid : Nat)

/-- Synchronously invoke a callback: emit the call event, apply its
registry mutations, and either return its value or allocate its pending
promise together with the countdown job that will settle it. -/
def invokeCb (env : Env V) (st : MState V) (cb : Cb) (args : List V) :
    MState V × CallRes V :=
  let b := cbBeh env cb args
  let st2 := { st with trace := st.trace ++ [.call cb args],
                       hookable := applyRegOps st.hookable b.ops }
  match b.delay with
  | none => (st2, .val b.ret)
  | some k =>
    let (st3, q) := newProm st2 (.pending [])
    ({ st3 with queue := st3.queue ++ [.settleLater k q b.ret] }, .prom q)

/-- Fill a `Promise.all` slot; when the last slot fills, fulfil the
combined promise with the collected array. -/
def groupFill (st : MState V) (g i : Nat) (jv : JVal V) : MState V :=
  match st.groups[g]? with
  | none => st
  | some gr =>
    let slots := gr.slots.set i (some jv)
    let st2 := { st with groups := st.groups.set g ⟨slots, gr.target⟩ }
    if slots.all Option.isSome then
      fulfillProm st2 gr.target (.arr (slots.map (fun o => o.getD .null)))
    else st2

/-- One microtask step: pop the front job and process it. A fired
`thenRun` invokes its callback and either resolves its target with the
plain value or makes the target adopt the returned promise. -/
def step (env : Env V) (st : MState V) : MState V :=
  match st.queue with
  | [] => st
  | job :: rest =>
    let st1 := { st with queue := rest }
    match job with
    | .settleLater 0 pid v => fulfillProm st1 pid (.v v)
    | .settleLater (Nat.succ k) pid v =>
      { st1 with queue := st1.queue ++ [.settleLater k pid v] }
    | .react (.link target) jv => fulfillProm st1 target jv
    | .react (.allSlot g i) jv => groupFill st1 g i jv
    | .react (.thenRun cb args target) _ =>
      let (st2, res) := invokeCb env st1 cb args
      match res with
      | .val x => fulfillProm st2 target (.v x)
      | .prom q => addReaction st2 q (.link target)

/-- Run the machine for a number of microtask steps. -/
def run (env : Env V) : Nat → MState V → MState V
  | 0, st => st
  | Nat.succ n, st => run env n (step env st)

/-- `serial(tasks, fn)` as used by `callHook` (with `fn = f => f(...args)`):
`tasks.reduce((promise, task) => promise.then(() => fn(task)), Promise.resolve(null))`. -/
def serial (st : MState V) (tasks : List Cb) (args : List V) : MState V × Nat :=
  let start := newProm st (.fulfilled .null)
  tasks.foldl (fun acc t => jsThen acc.1 acc.2 t args) start

/-- `serialCaller(hooks, args)`: the same reduce with
`hookFn.apply(undefined, args)` as the continuation body. -/
def serialCaller (st : MState V) (hooks : List Cb) (args : List V) : MState V × Nat :=
  let start := newProm st (.fulfilled .null)
  hooks.foldl (fun acc hf => jsThen acc.1 acc.2 hf args) start

/-- `Promise.all(items)`: allocate the slot group and combined promise,
fill value slots at once, and subscribe a slot reaction on each promise
item; afterwards, as with the remaining-counter check after the loop,
resolve at once when no slot is left pending (in particular
`Promise.all([])` resolves immediately). -/
def promiseAll (st : MState V) (items : List (CallRes V)) : MState V × Nat :=
  let g := st.groups.length
  let (st2, target) := newProm st (.pending [])
  let st3 := { st2 with groups := st2.groups ++ [⟨items.map (fun _ => none), target⟩] }
  let st4 := (List.range items.length).zip items |>.foldl
    (fun acc gi =>
      match gi.2 with
      | .val x => groupFill acc g gi.1 (.v x)
      | .prom q => addReaction acc q (.allSlot g gi.1))
    st3
  let st5 := match st4.groups[g]? with
    | some gr =>
      if gr.slots.all Option.isSome then
        fulfillProm st4 gr.target (.arr (gr.slots.map (fun o => o.getD .null)))
      else st4
    | none => st4
  (st5, target)

/-- `parallelCaller(hooks, args)`:
`Promise.all(hooks.map(hook => hook.apply(undefined, args)))` — every
callback is invoked synchronously during the map, in list order, before
the combined promise is formed. -/
def parallelCaller (env : Env V) (st : MState V) (hooks : List Cb) (args : List V) :
    MState V × Nat :=
  let (st2, items) := hooks.foldl
    (fun acc hf =>
      let (s, r) := invokeCb env acc.1 hf args
      (s, acc.2 ++ [r]))
    (st, ([] : List (CallRes V)))
  promiseAll st2 items

/-- `callHook`'s result: the bare `return` for an unknown name, else the
serial chain's promise. -/
inductive CallHookRes where
  | undef
  | prom (pid : Nat)
deriving DecidableEq

/-- `Hookable.callHook(name, ...args)`:
`if (!this._hooks[name]) return; return serial(this._hooks[name], fn => fn(...args))`.
(The model's `none` is exactly the absent key; a present key holds an
array, which is truthy even when empty.) -/
def callHook (st : MState V) (name : String) (args : List V) :
    MState V × CallHookRes :=
  match st.hookable.hooks name with
  | none => (st, .undef)
  | some tasks =>
    let (st2, p) := serial st tasks args
    (st2, .prom p)

/-! ### Machine lemmas -/

theorem run_add (env : Env V) (a b : Nat) (st : MState V) :
    run env (a + b) st = run env b (run env a st) := by
  induction a generalizing st with
  | zero => simp [run]
  | succ n ih => rw [Nat.succ_add]; simp only [run]; exact ih (step env st)

theorem step_empty (env : Env V) (st : MState V) (h : st.queue = []) :
    step env st = st := by
  unfold step
  rw [h]

theorem run_empty (env : Env V) (n : Nat) (st : MState V) (h : st.queue = []) :
    run env n st = st := by
  induction n with
  | zero => rfl
  | succ m ih => simp only [run, step_empty env st h, ih]

/-- Writing at the fresh index of a one-element extension replaces that
element. -/
theorem set_append_len {α : Type} (l : List α) (a b : α) :
    (l ++ [a]).set l.length b = l ++ [b] := by
  induction l with
  | nil => rfl
  | cons x xs ih => simp [List.set, ih]

/-- A lone `settleLater k` countdown fulfils its promise after `k + 1`
steps. -/
theorem run_settleLater (env : Env V) :
    ∀ (k : Nat) (st : MState V) (pid : Nat) (v : V),
    st.queue = [.settleLater k pid v] →
    run env (k + 1) st = fulfillProm { st with queue := [] } pid (.v v) := by
  intro k
  induction k with
  | zero =>
    intro st pid v hq
    show step env st = _
    unfold step
    rw [hq]
  | succ k ih =>
    intro st pid v hq
    have hstep : step env st = { st with queue := [.settleLater k pid v] } := by
      unfold step
      rw [hq]
      rfl
    have : run env (k + 1 + 1) st = run env (k + 1) (step env st) := by
      simp only [run]
    rw [this, hstep, ih _ pid v rfl]

/-- A fired serial-chain continuation whose callback is synchronous:
invoke the callback and resolve the target with its value. -/
theorem step_thenRun_sync (env : Env V) (st : MState V) (t : Cb) (args : List V)
    (c : Nat) (jv : JVal V) (q2 : List (Job V))
    (hq : st.queue = .react (.thenRun t args c) jv :: q2)
    (hd : (cbBeh env t args).delay = none) :
    step env st = fulfillProm
      { st with queue := q2,
                trace := st.trace ++ [.call t args],
                hookable := applyRegOps st.hookable (cbBeh env t args).ops }
      c (.v (cbBeh env t args).ret) := by
  unfold step
  rw [hq]
  simp only [invokeCb, hd]

/-- A fired serial-chain continuation whose callback is asynchronous:
invoke the callback, allocate its pending promise with its countdown, and
let the target adopt it. -/
theorem step_thenRun_async (env : Env V) (st : MState V) (t : Cb) (args : List V)
    (c : Nat) (jv : JVal V) (q2 : List (Job V)) (k : Nat)
    (hq : st.queue = .react (.thenRun t args c) jv :: q2)
    (hd : (cbBeh env t args).delay = some k) :
    step env st =
      { st with queue := q2 ++ [.settleLater k st.proms.length (cbBeh env t args).ret],
                proms := st.proms ++ [.pending [.link c]],
                trace := st.trace ++ [.call t args],
                hookable := applyRegOps st.hookable (cbBeh env t args).ops } := by
  unfold step
  rw [hq]
  simp only [invokeCb, hd, newProm, addReaction]
  have hget : ((st.proms ++ [Prom.pending ([] : List (Reaction V))])[st.proms.length]?) =
      some (.pending []) := by simp
  simp only [hget, List.nil_append, set_append_len]

/-- A fired adoption reaction resolves its target with the adopted
value. -/
theorem step_link (env : Env V) (st : MState V) (c : Nat) (jv : JVal V)
    (q2 : List (Job V)) (hq : st.queue = .react (.link c) jv :: q2) :
    step env st = fulfillProm { st with queue := q2 } c jv := by
  unfold step
  rw [hq]

/-! ### The serial promise chain -/

/-- The shape `serial`'s reduce leaves in the promise heap: promise `c`
is pending with exactly the continuation for the next task, whose target
carries the one after, and so on; the last target has no reactions. -/
def chainLinked (args : List V) (ps : List (Prom V)) : Nat → List (Nat × Cb) → Prop
  | c, [] => ps[c]? = some (.pending [])
  | c, (c2, t) :: rest =>
    ps[c]? = some (.pending [.thenRun t args c2]) ∧ chainLinked args ps c2 rest

theorem getElem?_some_lt {A : Type} {l : List A} {n : Nat} {a : A}
    (h : l[n]? = some a) : n < l.length := by
  by_contra hn
  rw [List.getElem?_eq_none (Nat.le_of_not_lt hn)] at h
  cases h

theorem chainLinked_bound (args : List V) (ps : List (Prom V)) :
    ∀ (rest : List (Nat × Cb)) (c : Nat), chainLinked args ps c rest →
    ∀ p ∈ c :: rest.map Prod.fst, p < ps.length := by
  intro rest
  induction rest with
  | nil =>
    intro c hc p hp
    have hp2 : p = c := by simpa using hp
    subst hp2
    exact getElem?_some_lt hc
  | cons hd tl ih =>
    intro c hc p hp
    obtain ⟨h1, h2⟩ := hc
    rcases List.mem_cons.mp hp with rfl | hp2
    · exact getElem?_some_lt h1
    · exact ih hd.1 h2 p (by simpa using hp2)

/-- Chain linkage survives writing outside the chain and extending the
heap. -/
theorem chainLinked_set_append (args : List V) (ps : List (Prom V)) :
    ∀ (rest : List (Nat × Cb)) (c : Nat), chainLinked args ps c rest →
    ∀ (x : Nat) (y : Prom V) (ext : List (Prom V)),
    x ∉ c :: rest.map Prod.fst →
    chainLinked args ((ps.set x y) ++ ext) c rest := by
  intro rest
  induction rest with
  | nil =>
    intro c hc x y ext hx
    have hcx : x ≠ c := by intro h; exact hx (by simp [h])
    have hlt : c < ps.length := chainLinked_bound args ps [] c hc c (by simp)
    show (List.set ps x y ++ ext)[c]? = some (.pending [])
    rw [List.getElem?_append_left (by simpa using hlt), List.getElem?_set_ne hcx]
    exact hc
  | cons hd tl ih =>
    intro c hc x y ext hx
    obtain ⟨h1, h2⟩ := hc
    have hcx : x ≠ c := by intro h; exact hx (by simp [h])
    have hlt : c < ps.length := chainLinked_bound args ps (hd :: tl) c ⟨h1, h2⟩ c (by simp)
    refine ⟨?_, ?_⟩
    · rw [List.getElem?_append_left (by simpa using hlt), List.getElem?_set_ne hcx]
      exact h1
    · exact ih hd.1 h2 x y ext (by
        intro hmem
        apply hx
        rcases List.mem_cons.mp hmem with rfl | hm
        · simp
        · simp only [List.map_cons, List.mem_cons]
          right; right; exact hm)

/-- Result of simulating the sequential execution of the pending chain:
the events emitted, the registry after all callback mutations, the last
callback's settled value, and the next fresh promise id. -/
structure SimRes (V : Type) where
  evs : List (Ev V)
  hookable : Hookable
  ret : V
  nextPid : Nat

/-- Sequentially simulate the chain: each task is invoked, possibly
settles its own fresh promise first, then its chain target settles with
its value, and the next task starts. `np` tracks the next fresh promise
id (an asynchronous task allocates one). -/
def chainSim (env : Env V) (args : List V) :
    Hookable → Nat → Cb → Nat → List (Nat × Cb) → SimRes V
  | h, np, t, c, rest =>
    let b := cbBeh env t args
    let h2 := applyRegOps h b.ops
    let evs : List (Ev V) :=
      match b.delay with
      | none => [.call t args, .settled c (.v b.ret)]
      | some _ => [.call t args, .settled np (.v b.ret), .settled c (.v b.ret)]
    let np2 : Nat :=
      match b.delay with
      | none => np
      | some _ => np + 1
    match rest with
    | [] => ⟨evs, h2, b.ret, np2⟩
    | (c2, t2) :: rest2 =>
      let r := chainSim env args h2 np2 t2 c2 rest2
      ⟨evs ++ r.evs, r.hookable, r.ret, r.nextPid⟩

/-- Steps the machine needs for one task of the chain. -/
def taskFuel (env : Env V) (args : List V) (t : Cb) : Nat :=
  match (cbBeh env t args).delay with
  | none => 1
  | some k => k + 3

/-- Steps the machine needs for a list of chain tasks. -/
def chainFuel (env : Env V) (args : List V) (ts : List Cb) : Nat :=
  (ts.map (taskFuel env args)).sum

theorem fulfillProm_eq (st : MState V) (pid : Nat) (jv : JVal V) (rs : List (Reaction V))
    (h : st.proms[pid]? = some (.pending rs)) :
    fulfillProm st pid jv =
      { st with proms := st.proms.set pid (.fulfilled jv),
                queue := st.queue ++ rs.map (fun r => Job.react r jv),
                trace := st.trace ++ [.settled pid jv] } := by
  unfold fulfillProm
  rw [h]

theorem set_append_lt {A : Type} (l m : List A) (i : Nat) (x : A) (h : i < l.length) :
    (l ++ m).set i x = l.set i x ++ m := by
  induction l generalizing i with
  | nil => cases h
  | cons a l ih =>
    cases i with
    | zero => rfl
    | succ n =>
      simp only [List.cons_append, List.set, List.append_eq]
      rw [ih n (Nat.lt_of_succ_lt_succ h)]

/-- Executing one synchronous chain task: one step invokes the callback
and settles its target, firing the target's reactions. -/
theorem run_task_sync (env : Env V) (args : List V) (st : MState V) (t : Cb) (c : Nat)
    (jv : JVal V) (rs : List (Reaction V))
    (hdelay : (cbBeh env t args).delay = none)
    (hq : st.queue = [.react (.thenRun t args c) jv])
    (hc : st.proms[c]? = some (.pending rs)) :
    run env (taskFuel env args t) st =
      { st with proms := st.proms.set c (.fulfilled (.v (cbBeh env t args).ret)),
                queue := rs.map (fun r => Job.react r (.v (cbBeh env t args).ret)),
                trace := st.trace ++ [.call t args, .settled c (.v (cbBeh env t args).ret)],
                hookable := applyRegOps st.hookable (cbBeh env t args).ops } := by
  have hfuel : taskFuel env args t = 1 := by simp [taskFuel, hdelay]
  rw [hfuel]
  show step env st = _
  rw [step_thenRun_sync env st t args c jv [] hq hdelay]
  rw [fulfillProm_eq _ c _ rs (by simpa using hc)]
  simp

/-- Executing one asynchronous chain task: the callback is invoked and
returns a fresh promise; after its countdown it settles, the target
adopts the value, and the target's reactions fire. -/
theorem run_task_async (env : Env V) (args : List V) (st : MState V) (t : Cb) (c : Nat)
    (jv : JVal V) (rs : List (Reaction V)) (k : Nat)
    (hdelay : (cbBeh env t args).delay = some k)
    (hq : st.queue = [.react (.thenRun t args c) jv])
    (hc : st.proms[c]? = some (.pending rs)) :
    run env (taskFuel env args t) st =
      { st with proms := st.proms.set c (.fulfilled (.v (cbBeh env t args).ret))
                          ++ [.fulfilled (.v (cbBeh env t args).ret)],
                queue := rs.map (fun r => Job.react r (.v (cbBeh env t args).ret)),
                trace := st.trace ++ [.call t args,
                                      .settled st.proms.length (.v (cbBeh env t args).ret),
                                      .settled c (.v (cbBeh env t args).ret)],
                hookable := applyRegOps st.hookable (cbBeh env t args).ops } := by
  have hcl : c < st.proms.length := getElem?_some_lt hc
  have hfuel : taskFuel env args t = 1 + ((k + 1) + 1) := by
    simp [taskFuel, hdelay]; omega
  rw [hfuel, run_add, run_add]
  have h1 : run env 1 st =
      { st with queue := [.settleLater k st.proms.length (cbBeh env t args).ret],
                proms := st.proms ++ [.pending [.link c]],
                trace := st.trace ++ [.call t args],
                hookable := applyRegOps st.hookable (cbBeh env t args).ops } := by
    show step env st = _
    rw [step_thenRun_async env st t args c jv [] k hq hdelay]
    simp
  rw [h1]
  have h2 := run_settleLater env k
    { st with queue := [.settleLater k st.proms.length (cbBeh env t args).ret],
              proms := st.proms ++ [.pending [.link c]],
              trace := st.trace ++ [.call t args],
              hookable := applyRegOps st.hookable (cbBeh env t args).ops }
    st.proms.length (cbBeh env t args).ret rfl
  rw [h2]
  have hget :
      ({ st with queue := ([] : List (Job V)),
                 proms := st.proms ++ [.pending [.link c]],
                 trace := st.trace ++ [.call t args],
                 hookable := applyRegOps st.hookable (cbBeh env t args).ops } :
        MState V).proms[st.proms.length]? = some (.pending [.link c]) := by simp
  rw [fulfillProm_eq _ _ _ _ hget]
  simp only [set_append_len, List.nil_append, List.map_cons, List.map_nil]
  have h3 : ∀ stx : MState V, stx.queue = [.react (.link c) (.v (cbBeh env t args).ret)] →
      run env 1 stx = fulfillProm { stx with queue := [] } c (.v (cbBeh env t args).ret) := by
    intro stx hqx
    show step env stx = _
    rw [step_link env stx c _ [] hqx]
  rw [h3 _ rfl]
  have hget2 : ((st.proms ++ [Prom.fulfilled (JVal.v (cbBeh env t args).ret)])[c]?) =
      some (Prom.pending rs) := by
    rw [List.getElem?_append_left hcl]
    exact hc
  rw [fulfillProm_eq _ _ _ _ hget2]
  simp only [List.nil_append]
  rw [set_append_lt _ _ _ _ hcl]
  simp

/-- Running a fully linked serial chain to quiescence: the tasks execute
strictly one after another — each is invoked only after the previous
target settled — the registry threads every callback's mutations, the
trace is exactly the simulated interleaving, and the final target ends
fulfilled with the last task's value. -/
theorem run_chain (env : Env V) (args : List V) :
    ∀ (rest : List (Nat × Cb)) (st : MState V) (t : Cb) (c : Nat) (jv : JVal V),
    st.queue = [.react (.thenRun t args c) jv] →
    chainLinked args st.proms c rest →
    (c :: rest.map Prod.fst).Pairwise (· < ·) →
    (run env (taskFuel env args t + chainFuel env args (rest.map Prod.snd)) st).trace
        = st.trace ++ (chainSim env args st.hookable st.proms.length t c rest).evs ∧
    (run env (taskFuel env args t + chainFuel env args (rest.map Prod.snd)) st).hookable
        = (chainSim env args st.hookable st.proms.length t c rest).hookable ∧
    (run env (taskFuel env args t + chainFuel env args (rest.map Prod.snd)) st).queue = [] ∧
    (run env (taskFuel env args t + chainFuel env args (rest.map Prod.snd)) st).groups
        = st.groups ∧
    (run env (taskFuel env args t + chainFuel env args (rest.map Prod.snd)) st).proms.length
        = (chainSim env args st.hookable st.proms.length t c rest).nextPid ∧
    (run env (taskFuel env args t + chainFuel env args (rest.map Prod.snd)) st).proms[
        (rest.map Prod.fst).getLastD c]?
        = some (.fulfilled (.v (chainSim env args st.hookable st.proms.length t c rest).ret)) := by
  intro rest
  induction rest with
  | nil =>
    intro st t c jv hq hl hp
    have hc : st.proms[c]? = some (.pending []) := hl
    have hcl : c < st.proms.length := getElem?_some_lt hc
    cases hdelay : (cbBeh env t args).delay with
    | none =>
      have hrun := run_task_sync env args st t c jv [] hdelay hq hc
      simp only [List.map_nil, chainFuel, List.sum_nil, Nat.add_zero, hrun, List.map_nil]
      refine ⟨?_, ?_, ?_, ?_, ?_, ?_⟩ <;>
        simp [chainSim, hdelay, List.getLastD, List.getElem?_set_self, hcl]
    | some k =>
      have hrun := run_task_async env args st t c jv [] k hdelay hq hc
      simp only [List.map_nil, chainFuel, List.sum_nil, Nat.add_zero, hrun, List.map_nil]
      refine ⟨?_, ?_, ?_, ?_, ?_, ?_⟩ <;>
        simp [chainSim, hdelay, List.getLastD]
      rw [List.getElem?_append_left (by simpa using hcl)]
      simp [List.getElem?_set_self, hcl]
  | cons hd tl ih =>
    intro st t c jv hq hl hp
    obtain ⟨c2, t2⟩ := hd
    obtain ⟨h1, h2⟩ := hl
    have hcl : c < st.proms.length := getElem?_some_lt h1
    have hcnot : c ∉ c2 :: tl.map Prod.fst := by
      intro hm
      have := (List.pairwise_cons.mp hp).1 c (by simpa using hm)
      exact absurd this (lt_irrefl c)
    have hptail : (c2 :: tl.map Prod.fst).Pairwise (· < ·) := by
      have := (List.pairwise_cons.mp hp).2
      simpa using this
    have hfuel : taskFuel env args t + chainFuel env args (((c2, t2) :: tl).map Prod.snd)
        = taskFuel env args t + (taskFuel env args t2 + chainFuel env args (tl.map Prod.snd)) := by
      simp [chainFuel]
    rw [hfuel, run_add]
    cases hdelay : (cbBeh env t args).delay with
    | none =>
      have hrun := run_task_sync env args st t c jv [.thenRun t2 args c2] hdelay hq h1
      simp only [List.map_cons, List.map_nil] at hrun
      rw [hrun]
      have hlink : chainLinked args
          (st.proms.set c (.fulfilled (.v (cbBeh env t args).ret))) c2 tl := by
        have := chainLinked_set_append args st.proms tl c2 h2 c
          (.fulfilled (.v (cbBeh env t args).ret)) [] hcnot
        simpa using this
      obtain ⟨e1, e2, e3, e4, e5, e6⟩ := ih
        { st with proms := st.proms.set c (.fulfilled (.v (cbBeh env t args).ret)),
                  queue := [.react (.thenRun t2 args c2) (.v (cbBeh env t args).ret)],
                  trace := st.trace ++ [.call t args, .settled c (.v (cbBeh env t args).ret)],
                  hookable := applyRegOps st.hookable (cbBeh env t args).ops }
        t2 c2 (.v (cbBeh env t args).ret) rfl hlink hptail
      simp only [List.length_set] at e1 e2 e5 e6
      refine ⟨?_, ?_, e3, e4, ?_, ?_⟩
      · rw [e1]
        simp only [chainSim, hdelay, List.append_assoc, List.cons_append, List.nil_append]
      · rw [e2]
        simp only [chainSim, hdelay]
      · rw [e5]
        simp only [chainSim, hdelay]
      · simp only [List.map_cons, List.getLastD_cons]
        rw [e6]
        simp only [chainSim, hdelay]
    | some k =>
      have hrun := run_task_async env args st t c jv [.thenRun t2 args c2] k hdelay hq h1
      simp only [List.map_cons, List.map_nil] at hrun
      rw [hrun]
      have hlink : chainLinked args
          (st.proms.set c (.fulfilled (.v (cbBeh env t args).ret))
            ++ [.fulfilled (.v (cbBeh env t args).ret)]) c2 tl :=
        chainLinked_set_append args st.proms tl c2 h2 c
          (.fulfilled (.v (cbBeh env t args).ret))
          [.fulfilled (.v (cbBeh env t args).ret)] hcnot
      obtain ⟨e1, e2, e3, e4, e5, e6⟩ := ih
        { st with proms := st.proms.set c (.fulfilled (.v (cbBeh env t args).ret))
                    ++ [.fulfilled (.v (cbBeh env t args).ret)],
                  queue := [.react (.thenRun t2 args c2) (.v (cbBeh env t args).ret)],
                  trace := st.trace ++ [.call t args,
                    .settled st.proms.length (.v (cbBeh env t args).ret),
                    .settled c (.v (cbBeh env t args).ret)],
                  hookable := applyRegOps st.hookable (cbBeh env t args).ops }
        t2 c2 (.v (cbBeh env t args).ret) rfl hlink hptail
      simp only [List.length_append, List.length_set, List.length_singleton] at e1 e2 e5 e6
      refine ⟨?_, ?_, e3, e4, ?_, ?_⟩
      · rw [e1]
        simp only [chainSim, hdelay, List.append_assoc, List.cons_append, List.nil_append]
      · rw [e2]
        simp only [chainSim, hdelay]
      · rw [e5]
        simp only [chainSim, hdelay]
      · simp only [List.map_cons, List.getLastD_cons]
        rw [e6]
        simp only [chainSim, hdelay]

/-- The reduce of `serial`: folding `.then` continuations onto a fresh
pending promise builds a linked chain of fresh consecutive promise ids
and touches nothing else in the machine. -/
theorem foldl_jsThen (args : List V) :
    ∀ (ts : List Cb) (st : MState V) (c : Nat),
    st.proms[c]? = some (.pending []) →
    c + 1 = st.proms.length →
    (ts.foldl (fun acc t => jsThen acc.1 acc.2 t args) (st, c)).2 = c + ts.length ∧
    (ts.foldl (fun acc t => jsThen acc.1 acc.2 t args) (st, c)).1.queue = st.queue ∧
    (ts.foldl (fun acc t => jsThen acc.1 acc.2 t args) (st, c)).1.trace = st.trace ∧
    (ts.foldl (fun acc t => jsThen acc.1 acc.2 t args) (st, c)).1.hookable = st.hookable ∧
    (ts.foldl (fun acc t => jsThen acc.1 acc.2 t args) (st, c)).1.groups = st.groups ∧
    (ts.foldl (fun acc t => jsThen acc.1 acc.2 t args) (st, c)).1.proms.length
      = st.proms.length + ts.length ∧
    chainLinked args (ts.foldl (fun acc t => jsThen acc.1 acc.2 t args) (st, c)).1.proms c
      ((List.range' (c + 1) ts.length).zip ts) ∧
    (∀ p, p < st.proms.length → p ≠ c →
      (ts.foldl (fun acc t => jsThen acc.1 acc.2 t args) (st, c)).1.proms[p]? = st.proms[p]?) := by
  intro ts
  induction ts with
  | nil =>
    intro st c hc _
    refine ⟨by simp, rfl, rfl, rfl, rfl, by simp, ?_, fun p _ _ => rfl⟩
    simpa [chainLinked] using hc
  | cons t2 ts2 ih =>
    intro st c hc hlen
    have hcl : c < st.proms.length := getElem?_some_lt hc
    have hstep : jsThen st c t2 args =
        ({ st with proms := st.proms.set c (.pending [.thenRun t2 args (c + 1)])
                     ++ [.pending []] }, c + 1) := by
      unfold jsThen newProm addReaction
      have hget : ((st.proms ++ [Prom.pending ([] : List (Reaction V))])[c]?)
          = some (.pending []) := by
        rw [List.getElem?_append_left hcl]
        exact hc
      simp only [hget, hlen]
      rw [set_append_lt _ _ _ _ hcl]
      simp
    have hfold : (t2 :: ts2).foldl (fun acc t => jsThen acc.1 acc.2 t args) (st, c)
        = ts2.foldl (fun acc t => jsThen acc.1 acc.2 t args)
            ({ st with proms := st.proms.set c (.pending [.thenRun t2 args (c + 1)])
                         ++ [.pending []] }, c + 1) := by
      simp only [List.foldl_cons, hstep]
    set st2 : MState V :=
      { st with proms := st.proms.set c (.pending [.thenRun t2 args (c + 1)])
                  ++ [.pending []] } with hst2
    have hc2 : st2.proms[c + 1]? = some (.pending []) := by
      rw [hst2]
      show ((st.proms.set c (.pending [.thenRun t2 args (c + 1)]) ++ [.pending []])[c+1]?) = _
      have : c + 1 = (st.proms.set c (.pending [.thenRun t2 args (c + 1)])).length := by
        simpa using hlen
      rw [this]
      simp
    have hlen2 : (c + 1) + 1 = st2.proms.length := by
      rw [hst2]
      simp [← hlen]
    obtain ⟨f1, f2, f3, f4, f5, f6, f7, f8⟩ := ih st2 (c + 1) hc2 hlen2
    rw [hfold]
    have hlen2' : st2.proms.length = st.proms.length + 1 := by
      rw [hst2]; simp
    refine ⟨?_, ?_, ?_, ?_, ?_, ?_, ?_, ?_⟩
    · rw [f1]; simp; omega
    · rw [f2]
    · rw [f3]
    · rw [f4]
    · rw [f5]
    · rw [f6, hlen2']; simp; omega
    · have hr : List.range' (c + 1) (ts2.length + 1) = (c + 1) :: List.range' (c + 2) ts2.length :=
        List.range'_succ (c + 1) ts2.length 1
      simp only [List.length_cons, hr, List.zip_cons_cons]
      refine ⟨?_, f7⟩
      have hne : c ≠ c + 1 := by omega
      rw [f8 c (by omega) (by omega)]
      · rw [hst2]
        show ((st.proms.set c (.pending [.thenRun t2 args (c + 1)]) ++ [.pending []])[c]?) = _
        rw [List.getElem?_append_left (by simpa using hcl), List.getElem?_set_self]
        simpa using hcl
    · intro p hp hpc
      have hp2 : p < st2.proms.length := by omega
      have hpc2 : p ≠ c + 1 := by omega
      rw [f8 p hp2 hpc2, hst2]
      show ((st.proms.set c (.pending [.thenRun t2 args (c + 1)]) ++ [.pending []])[p]?) = _
      rw [List.getElem?_append_left (by simpa using hp), List.getElem?_set_ne (Ne.symm hpc)]

/-- The invocation events of a trace, in order. -/
def callEvents : List (Ev V) → List (Ev V)
  | [] => []
  | .call cb args :: r => .call cb args :: callEvents r
  | .settled _ _ :: r => callEvents r

theorem callEvents_append (a b : List (Ev V)) :
    callEvents (a ++ b) = callEvents a ++ callEvents b := by
  induction a with
  | nil => rfl
  | cons e r ih =>
    cases e <;> simp [callEvents, ih]

/-- The registry state after every chain callback's mutations, in order. -/
def applyCbs (env : Env V) (args : List V) (h : Hookable) (ts : List Cb) : Hookable :=
  ts.foldl (fun h2 t => applyRegOps h2 (cbBeh env t args).ops) h

/-- The chain simulation invokes exactly the chain's tasks, in order,
each with the dispatch's argument list. -/
theorem chainSim_calls (env : Env V) (args : List V) :
    ∀ (rest : List (Nat × Cb)) (h : Hookable) (np : Nat) (t : Cb) (c : Nat),
    callEvents (chainSim env args h np t c rest).evs
      = (t :: rest.map Prod.snd).map (fun x => Ev.call x args) := by
  intro rest
  induction rest with
  | nil =>
    intro h np t c
    cases hdelay : (cbBeh env t args).delay <;>
      simp [chainSim, hdelay, callEvents]
  | cons hd tl ih =>
    intro h np t c
    obtain ⟨c2, t2⟩ := hd
    cases hdelay : (cbBeh env t args).delay <;>
      simp [chainSim, hdelay, callEvents, callEvents_append, ih]

/-- The chain simulation threads the registry through every callback's
mutations. -/
theorem chainSim_hookable_eq (env : Env V) (args : List V) :
    ∀ (rest : List (Nat × Cb)) (h : Hookable) (np : Nat) (t : Cb) (c : Nat),
    (chainSim env args h np t c rest).hookable
      = applyCbs env args h (t :: rest.map Prod.snd) := by
  intro rest
  induction rest with
  | nil =>
    intro h np t c
    cases hdelay : (cbBeh env t args).delay <;>
      simp [chainSim, hdelay, applyCbs]
  | cons hd tl ih =>
    intro h np t c
    obtain ⟨c2, t2⟩ := hd
    cases hdelay : (cbBeh env t args).delay <;>
      simp [chainSim, hdelay, applyCbs, ih, List.foldl_cons]

/-- The chain simulation's final value is the last task's return value. -/
theorem chainSim_ret_eq (env : Env V) (args : List V) :
    ∀ (rest : List (Nat × Cb)) (h : Hookable) (np : Nat) (t : Cb) (c : Nat),
    (chainSim env args h np t c rest).ret
      = (cbBeh env ((rest.map Prod.snd).getLastD t) args).ret := by
  intro rest
  induction rest with
  | nil =>
    intro h np t c
    cases hdelay : (cbBeh env t args).delay <;>
      simp [chainSim, hdelay, List.getLastD]
  | cons hd tl ih =>
    intro h np t c
    obtain ⟨c2, t2⟩ := hd
    cases hdelay : (cbBeh env t args).delay <;>
      simp only [chainSim, hdelay, ih, List.map_cons, List.getLastD_cons]

theorem range'_getLastD (n s d : Nat) :
    (List.range' s (n + 1)).getLastD d = s + n := by
  induction n generalizing s d with
  | zero => simp [List.range']
  | succ m ih =>
    rw [List.range'_succ s (m + 1) 1, List.getLastD_cons, ih (s + 1) s]
    omega

theorem jsThen_fulfilled (st : MState V) (src : Nat) (cb : Cb) (args : List V) (jv : JVal V)
    (h : st.proms[src]? = some (.fulfilled jv)) :
    jsThen st src cb args =
      ({ st with proms := st.proms ++ [.pending []],
                 queue := st.queue ++ [.react (.thenRun cb args st.proms.length) jv] },
       st.proms.length) := by
  unfold jsThen newProm addReaction
  have hget : ((st.proms ++ [Prom.pending ([] : List (Reaction V))])[src]?)
      = some (.fulfilled jv) := by
    rw [List.getElem?_append_left (getElem?_some_lt h)]
    exact h
  simp only [hget]

theorem callHook_none (st : MState V) (name : String) (args : List V)
    (hh : st.hookable.hooks name = none) :
    callHook st name args = (st, .undef) := by
  simp [callHook, hh]

/-- The one-line abbreviation for the simulation a dispatch of tasks
`t :: ts` from machine `st` performs. -/
def dispatchSim (env : Env V) (args : List V) (st : MState V) (t : Cb) (ts : List Cb) :
    SimRes V :=
  chainSim env args st.hookable (st.proms.length + 2 + ts.length) t (st.proms.length + 1)
    ((List.range' (st.proms.length + 2) ts.length).zip ts)

/-- Running the serial reduce's chain to quiescence yields exactly the
chain simulation's trace/registry, an empty queue, untouched groups, and
the chain promise fulfilled with the last callback's value. -/
theorem serial_run (env : Env V) (st : MState V) (args : List V)
    (t : Cb) (ts : List Cb)
    (hq : st.queue = []) :
    (serial st (t :: ts) args).2 = st.proms.length + 1 + ts.length ∧
    (run env (chainFuel env args (t :: ts)) (serial st (t :: ts) args).1).trace
        = st.trace ++ (dispatchSim env args st t ts).evs ∧
    (run env (chainFuel env args (t :: ts)) (serial st (t :: ts) args).1).hookable
        = (dispatchSim env args st t ts).hookable ∧
    (run env (chainFuel env args (t :: ts)) (serial st (t :: ts) args).1).queue = [] ∧
    (run env (chainFuel env args (t :: ts)) (serial st (t :: ts) args).1).groups = st.groups ∧
    (run env (chainFuel env args (t :: ts))
        (serial st (t :: ts) args).1).proms[st.proms.length + 1 + ts.length]?
        = some (.fulfilled (.v (dispatchSim env args st t ts).ret)) := by
  have hser : serial st (t :: ts) args
      = ts.foldl (fun acc x => jsThen acc.1 acc.2 x args)
          ({ st with proms := st.proms ++ [.fulfilled .null, .pending []],
                     queue := st.queue ++ [.react (.thenRun t args (st.proms.length + 1)) .null] },
           st.proms.length + 1) := by
    unfold serial
    simp only [List.foldl_cons]
    have h0 : newProm st (Prom.fulfilled (JVal.null : JVal V))
        = ({ st with proms := st.proms ++ [.fulfilled .null] }, st.proms.length) := rfl
    rw [h0]
    have h1 := jsThen_fulfilled { st with proms := st.proms ++ [.fulfilled .null] }
        st.proms.length t args .null (by simp)
    rw [h1]
    simp [List.append_assoc]
  set st3 : MState V :=
    { st with proms := st.proms ++ [.fulfilled .null, .pending []],
              queue := st.queue ++ [.react (.thenRun t args (st.proms.length + 1)) .null] }
    with hst3
  have hc3 : st3.proms[st.proms.length + 1]? = some (.pending []) := by
    rw [hst3]
    show ((st.proms ++ [Prom.fulfilled JVal.null, Prom.pending []])[st.proms.length + 1]?) = _
    rw [List.getElem?_append_right (by omega)]
    simp
  have hlen3 : (st.proms.length + 1) + 1 = st3.proms.length := by
    rw [hst3]; simp
  obtain ⟨f1, f2, f3, f4, f5, f6, f7, f8⟩ :=
    foldl_jsThen args ts st3 (st.proms.length + 1) hc3 hlen3
  set stF : MState V :=
    (ts.foldl (fun acc x => jsThen acc.1 acc.2 x args) (st3, st.proms.length + 1)).1 with hstF
  have hfst : (serial st (t :: ts) args).1 = stF := by
    rw [hser]
  have hsnd : (serial st (t :: ts) args).2 = st.proms.length + 1 + ts.length := by
    rw [hser]
    exact f1
  have hqF : stF.queue = [.react (.thenRun t args (st.proms.length + 1)) .null] := by
    rw [f2]
    simp [hst3, hq]
  have hzip_fst : ((List.range' (st.proms.length + 2) ts.length).zip ts).map Prod.fst
      = List.range' (st.proms.length + 2) ts.length := by
    apply List.map_fst_zip
    simp
  have hzip_snd : ((List.range' (st.proms.length + 2) ts.length).zip ts).map Prod.snd = ts := by
    apply List.map_snd_zip
    simp
  have hpair : ((st.proms.length + 1) ::
      ((List.range' (st.proms.length + 2) ts.length).zip ts).map Prod.fst).Pairwise (· < ·) := by
    rw [hzip_fst]
    have : (st.proms.length + 1) :: List.range' (st.proms.length + 2) ts.length
        = List.range' (st.proms.length + 1) (ts.length + 1) := by
      rw [List.range'_succ]
    rw [this]
    exact List.pairwise_lt_range' _ _ 1 (by simp)
  have hlink : chainLinked args stF.proms (st.proms.length + 1)
      ((List.range' (st.proms.length + 2) ts.length).zip ts) := by
    have heq : st.proms.length + 1 + 1 = st.proms.length + 2 := by omega
    rw [← heq]
    exact f7
  obtain ⟨g1, g2, g3, g4, g5, g6⟩ := run_chain env args
    ((List.range' (st.proms.length + 2) ts.length).zip ts) stF t (st.proms.length + 1)
    .null hqF hlink hpair
  rw [hzip_snd] at g1 g2 g3 g4 g5 g6
  have hfuel : chainFuel env args (t :: ts) = taskFuel env args t + chainFuel env args ts := by
    simp [chainFuel]
  have htr3 : stF.trace = st.trace := by rw [f3]
  have hhk3 : stF.hookable = st.hookable := by rw [f4]
  have hgr3 : stF.groups = st.groups := by rw [f5]
  have hlenF : stF.proms.length = st.proms.length + 2 + ts.length := by
    rw [f6]
    simp [hst3]
    try omega
  simp only [htr3, hhk3, hgr3, hlenF] at g1 g2 g3 g4 g5 g6
  have hlastpid : (((List.range' (st.proms.length + 2) ts.length).zip ts).map
      Prod.fst).getLastD (st.proms.length + 1) = st.proms.length + 1 + ts.length := by
    rw [hzip_fst]
    cases ts with
    | nil => simp [List.getLastD]
    | cons a l =>
      simp only [List.length_cons]
      rw [range'_getLastD]
      omega
  rw [hlastpid] at g6
  refine ⟨hsnd, ?_, ?_, ?_, ?_, ?_⟩ <;>
    rw [hfst, hfuel] <;>
    first
      | exact g1
      | exact g2
      | exact g3
      | exact g4
      | exact g6

/-- A full dispatch: `callHook` on a registered name returns a promise,
and running the dispatch to quiescence yields exactly the chain
simulation's trace/registry, an empty queue, untouched groups, and the
result promise fulfilled with the last callback's value. -/
theorem callHook_run (env : Env V) (st : MState V) (name : String) (args : List V)
    (t : Cb) (ts : List Cb)
    (hq : st.queue = [])
    (hh : st.hookable.hooks name = some (t :: ts)) :
    (callHook st name args).2 = .prom (st.proms.length + 1 + ts.length) ∧
    (run env (chainFuel env args (t :: ts)) (callHook st name args).1).trace
        = st.trace ++ (dispatchSim env args st t ts).evs ∧
    (run env (chainFuel env args (t :: ts)) (callHook st name args).1).hookable
        = (dispatchSim env args st t ts).hookable ∧
    (run env (chainFuel env args (t :: ts)) (callHook st name args).1).queue = [] ∧
    (run env (chainFuel env args (t :: ts)) (callHook st name args).1).groups = st.groups ∧
    (run env (chainFuel env args (t :: ts))
        (callHook st name args).1).proms[st.proms.length + 1 + ts.length]?
        = some (.fulfilled (.v (dispatchSim env args st t ts).ret)) := by
  obtain ⟨s0, s1, s2, s3, s4, s5⟩ := serial_run env st args t ts hq
  have hcall1 : (callHook st name args).1 = (serial st (t :: ts) args).1 := by
    unfold callHook
    rw [hh]
  have hcall2 : (callHook st name args).2 = .prom (st.proms.length + 1 + ts.length) := by
    unfold callHook
    rw [hh]
    show CallHookRes.prom (serial st (t :: ts) args).2 = _
    rw [s0]
  refine ⟨hcall2, ?_, ?_, ?_, ?_, ?_⟩ <;>
    rw [hcall1] <;>
    first
      | exact s1
      | exact s2
      | exact s3
      | exact s4
      | exact s5

/-! ### Registry helper lemmas -/

theorem resolveDep_noentry (dep : String → Option DeprecatedHook) (fuel : Nat)
    (name : String) (acc : Option (Option String)) (h : dep name = none) :
    resolveDep dep fuel name acc = some (name, acc) := by
  unfold resolveDep
  rw [h]

/-- `resolveDep` only stops at a name with no deprecation entry. -/
theorem resolveDep_final_noentry (dep : String → Option DeprecatedHook) :
    ∀ (fuel : Nat) (name final : String) (acc m : Option (Option String)),
    resolveDep dep fuel name acc = some (final, m) → dep final = none := by
  intro fuel
  induction fuel with
  | zero =>
    intro name final acc m h
    unfold resolveDep at h
    cases hd : dep name with
    | none => rw [hd] at h; injection h with h2; injection h2 with h3 _; rw [← h3]; exact hd
    | some d => rw [hd] at h; cases h
  | succ f ih =>
    intro name final acc m h
    unfold resolveDep at h
    cases hd : dep name with
    | none => rw [hd] at h; injection h with h2; injection h2 with h3 _; rw [← h3]; exact hd
    | some d => rw [hd] at h; exact ih (depTo d) final _ m h

/-- `hook` on a valid name whose deprecation chain resolves: append under
the resolved name. -/
theorem hook_eq (h : Hookable) (name : String) (fn : Cb) (fuel : Nat)
    (rname : String) (depInfo : Option (Option String))
    (hname : name ≠ "")
    (hres : resolveDep h.deprecatedHooks fuel name none = some (rname, depInfo)) :
    hook h name (some fn) fuel =
      ({ h with hooks := fun n =>
           if n = rname then some ((h.hooks rname).getD [] ++ [fn]) else h.hooks n },
       ⟨rname, some fn⟩,
       hookWarnings name rname depInfo) := by
  unfold hook
  simp only [if_neg hname, hres]

/-- `hook` on a valid name with no deprecation entry registers under the
name itself, with no warning. -/
theorem hook_noentry (h : Hookable) (name : String) (fn : Cb) (fuel : Nat)
    (hname : name ≠ "") (hdep : h.deprecatedHooks name = none) :
    hook h name (some fn) fuel =
      ({ h with hooks := fun n =>
           if n = name then some ((h.hooks name).getD [] ++ [fn]) else h.hooks n },
       ⟨name, some fn⟩, []) := by
  rw [hook_eq h name fn fuel name none hname
    (resolveDep_noentry h.deprecatedHooks fuel name none hdep)]
  rfl

/-- Per-dispatch fuel: enough machine steps to drain the dispatch of a
name from a quiescent machine. -/
def dispatchFuel (env : Env V) (args : List V) (st : MState V) (name : String) : Nat :=
  match st.hookable.hooks name with
  | none => 0
  | some ts => chainFuel env args ts

/-- A dispatch invokes exactly the registered sequence, in order, each
callback once with the dispatch's argument list. -/
theorem callHook_calls (env : Env V) (st : MState V) (name : String) (args : List V)
    (t : Cb) (ts : List Cb)
    (hq : st.queue = [])
    (hh : st.hookable.hooks name = some (t :: ts)) :
    callEvents (run env (dispatchFuel env args st name) (callHook st name args).1).trace
      = callEvents st.trace ++ (t :: ts).map (fun c => Ev.call c args) := by
  have hfuel : dispatchFuel env args st name = chainFuel env args (t :: ts) := by
    unfold dispatchFuel
    rw [hh]
  obtain ⟨_, g1, _, _, _, _⟩ := callHook_run env st name args t ts hq hh
  rw [hfuel, g1, callEvents_append]
  unfold dispatchSim
  rw [chainSim_calls]
  have : ((List.range' (st.proms.length + 2) ts.length).zip ts).map Prod.snd = ts := by
    apply List.map_snd_zip
    simp
  rw [this]

/-- After a dispatch runs to quiescence the registry is the fold of every
invoked callback's mutations, and the queue is empty again. -/
theorem callHook_final_state (env : Env V) (st : MState V) (name : String) (args : List V)
    (t : Cb) (ts : List Cb)
    (hq : st.queue = [])
    (hh : st.hookable.hooks name = some (t :: ts)) :
    (run env (dispatchFuel env args st name) (callHook st name args).1).hookable
        = applyCbs env args st.hookable (t :: ts) ∧
    (run env (dispatchFuel env args st name) (callHook st name args).1).queue = [] ∧
    (run env (dispatchFuel env args st name) (callHook st name args).1).trace
        = st.trace ++ (dispatchSim env args st t ts).evs := by
  have hfuel : dispatchFuel env args st name = chainFuel env args (t :: ts) := by
    unfold dispatchFuel
    rw [hh]
  obtain ⟨_, g1, g2, g3, _, _⟩ := callHook_run env st name args t ts hq hh
  refine ⟨?_, ?_, ?_⟩ <;> rw [hfuel]
  · rw [g2]
    unfold dispatchSim
    rw [chainSim_hookable_eq]
    have : ((List.range' (st.proms.length + 2) ts.length).zip ts).map Prod.snd = ts := by
      apply List.map_snd_zip
      simp
    rw [this]
  · exact g3
  · exact g1

/-- A dispatch's returned promise ends fulfilled with the settled value
of the last registered callback. -/
theorem callHook_last_value (env : Env V) (st : MState V) (name : String) (args : List V)
    (t : Cb) (ts : List Cb)
    (hq : st.queue = [])
    (hh : st.hookable.hooks name = some (t :: ts)) :
    (callHook st name args).2 = .prom (st.proms.length + 1 + ts.length) ∧
    (run env (dispatchFuel env args st name)
        (callHook st name args).1).proms[st.proms.length + 1 + ts.length]?
      = some (.fulfilled (.v (cbBeh env (ts.getLastD t) args).ret)) := by
  have hfuel : dispatchFuel env args st name = chainFuel env args (t :: ts) := by
    unfold dispatchFuel
    rw [hh]
  obtain ⟨g0, _, _, _, _, g6⟩ := callHook_run env st name args t ts hq hh
  refine ⟨g0, ?_⟩
  rw [hfuel, g6]
  unfold dispatchSim
  rw [chainSim_ret_eq]
  have : ((List.range' (st.proms.length + 2) ts.length).zip ts).map Prod.snd = ts := by
    apply List.map_snd_zip
    simp
  rw [this]

/-! ### Claim theorems -/

/-- C1: for every non-empty name with no deprecation entry (a fresh
instance has none) and every callback `fn`, `hook(name, fn)` followed by
`callHook(name, ...args)` invokes `fn` exactly once, with exactly the
argument list `args`: the dispatch's invocation events are precisely
`[call fn args]`. -/
theorem C1_register_then_call_invokes_once {V : Type} (env : Env V) (name : String)
    (fn : Cb) (args : List V) (fuel : Nat) (hname : name ≠ "") :
    callEvents (run env
        (dispatchFuel env args (mkM (hook emptyHookable name (some fn) fuel).1) name)
        (callHook (mkM (hook emptyHookable name (some fn) fuel).1) name args).1).trace
      = [Ev.call fn args] := by
  have hh : (hook emptyHookable name (some fn) fuel).1.hooks name = some [fn] := by
    rw [hook_noentry emptyHookable name fn fuel hname rfl]
    simp [emptyHookable]
  have := callHook_calls env (mkM (hook emptyHookable name (some fn) fuel).1)
    name args fn [] rfl hh
  simpa [mkM, callEvents] using this

theorem C1_witness :
    (("test:hook" : String) ≠ "") ∧
    callEvents (run (fun i _ => (⟨[], none, i⟩ : Beh Nat))
        (dispatchFuel (fun i _ => (⟨[], none, i⟩ : Beh Nat)) [5, 7]
          (mkM (hook emptyHookable "test:hook" (some (Cb.base 3)) 0).1) "test:hook")
        (callHook (mkM (hook emptyHookable "test:hook" (some (Cb.base 3)) 0).1)
          "test:hook" [5, 7]).1).trace
      = [Ev.call (Cb.base 3) [5, 7]] :=
  ⟨by decide, C1_register_then_call_invokes_once _ "test:hook" _ _ _ (by decide)⟩

/-- C2: with a deprecation entry on `old` whose chain resolves to the
final name `rname`, `hook(old, f)` appends `f` under `rname` and leaves
no entry under `old`; `callHook(old)` does not invoke anything (trigger
does not follow aliases — it returns the bare undefined and leaves the
machine untouched) while `callHook(rname)` invokes `f`. -/
theorem C2_deprecation_redirect {V : Type} (env : Env V) (h : Hookable) (old : String)
    (f : Cb) (args : List V) (fuel : Nat) (rname : String)
    (minfo : Option (Option String)) (d : DeprecatedHook)
    (hold : old ≠ "")
    (hdep : h.deprecatedHooks old = some d)
    (hres : resolveDep h.deprecatedHooks fuel old none = some (rname, minfo))
    (hnoold : h.hooks old = none) :
    (hook h old (some f) fuel).1.hooks rname = some ((h.hooks rname).getD [] ++ [f]) ∧
    (hook h old (some f) fuel).1.hooks old = none ∧
    callHook (mkM (hook h old (some f) fuel).1) old args
      = (mkM (hook h old (some f) fuel).1, .undef) ∧
    callEvents (run env
        (dispatchFuel env args (mkM (hook h old (some f) fuel).1) rname)
        (callHook (mkM (hook h old (some f) fuel).1) rname args).1).trace
      = ((h.hooks rname).getD [] ++ [f]).map (fun c => Ev.call c args) := by
  have hne : rname ≠ old := by
    intro he
    have := resolveDep_final_noentry h.deprecatedHooks fuel old rname none minfo hres
    rw [he, hdep] at this
    cases this
  have hk := hook_eq h old f fuel rname minfo hold hres
  have h1 : (hook h old (some f) fuel).1.hooks rname
      = some ((h.hooks rname).getD [] ++ [f]) := by
    rw [hk]
    simp
  have h2 : (hook h old (some f) fuel).1.hooks old = none := by
    rw [hk]
    simp only [if_neg (Ne.symm hne)]
    exact hnoold
  refine ⟨h1, h2, ?_, ?_⟩
  · exact callHook_none _ old args h2
  · cases hprev : (h.hooks rname).getD [] with
    | nil =>
      have hh : (hook h old (some f) fuel).1.hooks rname = some [f] := by
        rw [h1, hprev]
        rfl
      have := callHook_calls env (mkM (hook h old (some f) fuel).1) rname args f [] rfl hh
      simpa [mkM, callEvents] using this
    | cons p ps =>
      have hh : (hook h old (some f) fuel).1.hooks rname = some (p :: (ps ++ [f])) := by
        rw [h1, hprev]
        simp
      have := callHook_calls env (mkM (hook h old (some f) fuel).1) rname args
        p (ps ++ [f]) rfl hh
      simpa [mkM, callEvents] using this

theorem C2_witness :
    (("old" : String) ≠ "") ∧
    ((deprecateHook emptyHookable "old" (.str "new")).deprecatedHooks "old"
      = some (DeprecatedHook.str "new")) ∧
    (resolveDep (deprecateHook emptyHookable "old" (.str "new")).deprecatedHooks 1 "old" none
      = some ("new", some (none : Option String))) ∧
    ((deprecateHook emptyHookable "old" (.str "new")).hooks "old" = none) ∧
    ((hook (deprecateHook emptyHookable "old" (.str "new")) "old" (some (Cb.base 0)) 1).1.hooks
        "new" = some (((deprecateHook emptyHookable "old" (.str "new")).hooks "new").getD []
          ++ [Cb.base 0]) ∧
     (hook (deprecateHook emptyHookable "old" (.str "new")) "old" (some (Cb.base 0)) 1).1.hooks
        "old" = none ∧
     callHook (mkM (hook (deprecateHook emptyHookable "old" (.str "new")) "old"
          (some (Cb.base 0)) 1).1 : MState Nat) "old" [9]
        = (mkM (hook (deprecateHook emptyHookable "old" (.str "new")) "old"
            (some (Cb.base 0)) 1).1, .undef) ∧
     callEvents (run (fun i _ => (⟨[], none, i⟩ : Beh Nat))
        (dispatchFuel (fun i _ => (⟨[], none, i⟩ : Beh Nat)) [9]
          (mkM (hook (deprecateHook emptyHookable "old" (.str "new")) "old"
            (some (Cb.base 0)) 1).1) "new")
        (callHook (mkM (hook (deprecateHook emptyHookable "old" (.str "new")) "old"
            (some (Cb.base 0)) 1).1) "new" [9]).1).trace
      = (((deprecateHook emptyHookable "old" (.str "new")).hooks "new").getD []
          ++ [Cb.base 0]).map (fun c => Ev.call c [9])) :=
  ⟨by decide, by decide, by decide, by decide,
   C2_deprecation_redirect (fun i _ => (⟨[], none, i⟩ : Beh Nat))
     (deprecateHook emptyHookable "old" (.str "new")) "old" (Cb.base 0) [9] 1 "new"
     (some none) (.str "new") (by decide) (by decide) (by decide) (by decide)⟩

/-- C3: a serial dispatch executes its callback list strictly one at a
time in registration order. The final trace equals the sequential
simulation `dispatchSim`, whose shape per task is
`[call tᵢ args, (settled ownPromiseᵢ), settled targetᵢ]` followed by the
next task's block: callback `i+1`'s invocation event comes only after
callback `i`'s result (its own promise when asynchronous) has settled,
and the dispatch's combined promise is the last target — its settlement
is the final event, after the last callback completed. `serialCaller`
builds the identical chain as `serial`. -/
theorem C3_serial_in_order {V : Type} (env : Env V) (st : MState V) (name : String)
    (args : List V) (t : Cb) (ts : List Cb)
    (hq : st.queue = [])
    (hh : st.hookable.hooks name = some (t :: ts)) :
    (run env (dispatchFuel env args st name) (callHook st name args).1).trace
        = st.trace ++ (dispatchSim env args st t ts).evs ∧
    callEvents (run env (dispatchFuel env args st name) (callHook st name args).1).trace
        = callEvents st.trace ++ (t :: ts).map (fun c => Ev.call c args) ∧
    (run env (dispatchFuel env args st name) (callHook st name args).1).queue = [] ∧
    (run env (dispatchFuel env args st name)
        (callHook st name args).1).proms[st.proms.length + 1 + ts.length]?
        = some (.fulfilled (.v (cbBeh env (ts.getLastD t) args).ret)) ∧
    (∀ (st2 : MState V) (hooks : List Cb) (args2 : List V),
      serialCaller st2 hooks args2 = serial st2 hooks args2) := by
  obtain ⟨e1, e2, e3⟩ := callHook_final_state env st name args t ts hq hh
  obtain ⟨_, l2⟩ := callHook_last_value env st name args t ts hq hh
  exact ⟨e3, callHook_calls env st name args t ts hq hh, e2, l2, fun _ _ _ => rfl⟩

theorem C3_witness :
    (((mkM (hook emptyHookable "a" (some (Cb.base 0)) 0).1 : MState Nat)).queue = []) ∧
    ((mkM (hook emptyHookable "a" (some (Cb.base 0)) 0).1 : MState Nat).hookable.hooks "a"
      = some [Cb.base 0]) ∧
    ((run (fun i _ => (⟨[], some 2, i⟩ : Beh Nat))
        (dispatchFuel (fun i _ => (⟨[], some 2, i⟩ : Beh Nat)) [1]
          (mkM (hook emptyHookable "a" (some (Cb.base 0)) 0).1) "a")
        (callHook (mkM (hook emptyHookable "a" (some (Cb.base 0)) 0).1) "a" [1]).1).trace
        = (mkM (hook emptyHookable "a" (some (Cb.base 0)) 0).1 : MState Nat).trace
          ++ (dispatchSim (fun i _ => (⟨[], some 2, i⟩ : Beh Nat)) [1]
              (mkM (hook emptyHookable "a" (some (Cb.base 0)) 0).1) (Cb.base 0) []).evs ∧
     callEvents (run (fun i _ => (⟨[], some 2, i⟩ : Beh Nat))
        (dispatchFuel (fun i _ => (⟨[], some 2, i⟩ : Beh Nat)) [1]
          (mkM (hook emptyHookable "a" (some (Cb.base 0)) 0).1) "a")
        (callHook (mkM (hook emptyHookable "a" (some (Cb.base 0)) 0).1) "a" [1]).1).trace
        = callEvents (mkM (hook emptyHookable "a" (some (Cb.base 0)) 0).1 : MState Nat).trace
          ++ [Cb.base 0].map (fun c => Ev.call c [1]) ∧
     (run (fun i _ => (⟨[], some 2, i⟩ : Beh Nat))
        (dispatchFuel (fun i _ => (⟨[], some 2, i⟩ : Beh Nat)) [1]
          (mkM (hook emptyHookable "a" (some (Cb.base 0)) 0).1) "a")
        (callHook (mkM (hook emptyHookable "a" (some (Cb.base 0)) 0).1) "a" [1]).1).queue
        = [] ∧
     (run (fun i _ => (⟨[], some 2, i⟩ : Beh Nat))
        (dispatchFuel (fun i _ => (⟨[], some 2, i⟩ : Beh Nat)) [1]
          (mkM (hook emptyHookable "a" (some (Cb.base 0)) 0).1) "a")
        (callHook (mkM (hook emptyHookable "a" (some (Cb.base 0)) 0).1) "a"
          [1]).1).proms[(mkM (hook emptyHookable "a" (some (Cb.base 0)) 0).1 :
            MState Nat).proms.length + 1 + ([] : List Cb).length]?
        = some (.fulfilled (.v (cbBeh (fun i _ => (⟨[], some 2, i⟩ : Beh Nat))
            (([] : List Cb).getLastD (Cb.base 0)) [1]).ret)) ∧
     (∀ (st2 : MState Nat) (hooks : List Cb) (args2 : List Nat),
       serialCaller st2 hooks args2 = serial st2 hooks args2)) :=
  ⟨rfl, by decide,
   C3_serial_in_order (fun i _ => (⟨[], some 2, i⟩ : Beh Nat))
     (mkM (hook emptyHookable "a" (some (Cb.base 0)) 0).1) "a" [1] (Cb.base 0) []
     rfl (by decide)⟩

/-- C7 (counterexample): the code has no one-time guard on deprecation
warnings — a second registration through the same deprecated alias warns
again (the warning list of the second `hook` call is not empty, and is
the same generated message naming the original name and final target). -/
theorem C7_counterexample :
    ¬ ((hook (hook (deprecateHook emptyHookable "old" (.str "new")) "old"
          (some (Cb.base 0)) 1).1 "old" (some (Cb.base 1)) 1).2.2 = []) ∧
    (hook (hook (deprecateHook emptyHookable "old" (.str "new")) "old"
        (some (Cb.base 0)) 1).1 "old" (some (Cb.base 1)) 1).2.2
      = ["old hook has been deprecated, please use new"] :=
  ⟨by decide, by decide⟩

/-- C7 (amended): every registration through a deprecated alias emits the
warning — not only the first — and when the last traversed entry has no
custom message the generated warning names the original requested name
and the final resolved target of the whole chain. -/
theorem C7_warn_on_every_registration (h : Hookable) (name rname : String) (fn fn2 : Cb)
    (fuel : Nat) (hname : name ≠ "")
    (hres : resolveDep h.deprecatedHooks fuel name none = some (rname, some none)) :
    (hook h name (some fn) fuel).2.2 = [genWarning name rname] ∧
    (hook (hook h name (some fn) fuel).1 name (some fn2) fuel).2.2
      = [genWarning name rname] ∧
    genWarning name rname = name ++ " hook has been deprecated"
      ++ (if rname = "" then "" else ", please use " ++ rname) := by
  have hk := hook_eq h name fn fuel rname (some none) hname hres
  have hdeps : (hook h name (some fn) fuel).1.deprecatedHooks = h.deprecatedHooks := by
    rw [hk]
  have hres2 : resolveDep (hook h name (some fn) fuel).1.deprecatedHooks fuel name none
      = some (rname, some none) := by
    rw [hdeps]
    exact hres
  have hk2 := hook_eq (hook h name (some fn) fuel).1 name fn2 fuel rname (some none)
    hname hres2
  refine ⟨?_, ?_, rfl⟩
  · rw [hk]
    rfl
  · rw [hk2]
    rfl

theorem C7_witness :
    (("old" : String) ≠ "") ∧
    (resolveDep (deprecateHook emptyHookable "old" (.str "new")).deprecatedHooks 1 "old" none
      = some ("new", some (none : Option String))) ∧
    ((hook (deprecateHook emptyHookable "old" (.str "new")) "old" (some (Cb.base 0)) 1).2.2
      = [genWarning "old" "new"] ∧
     (hook (hook (deprecateHook emptyHookable "old" (.str "new")) "old"
        (some (Cb.base 0)) 1).1 "old" (some (Cb.base 1)) 1).2.2 = [genWarning "old" "new"] ∧
     genWarning "old" "new" = "old" ++ " hook has been deprecated"
      ++ (if ("new" : String) = "" then "" else ", please use " ++ "new")) :=
  ⟨by decide, by decide,
   C7_warn_on_every_registration (deprecateHook emptyHookable "old" (.str "new"))
     "old" "new" (Cb.base 0) (Cb.base 1) 1 (by decide) (by decide)⟩

/-- C9 (counterexample): `serialCaller` applied to the empty list does
not return a bare undefined with no asynchronous result — it creates a
promise (`Promise.resolve(null)`, the reduce's initial value): the
machine's promise heap changes. -/
theorem C9_counterexample :
    ¬ ((serialCaller (mkM emptyHookable : MState Nat) [] []).1.proms
        = (mkM emptyHookable : MState Nat).proms) := by
  intro hcontra
  exact List.cons_ne_nil _ _ hcontra

/-- C9 (amended): `serialCaller` on an empty callback list returns an
already-fulfilled promise with value `null`, invoking nothing and
enqueuing no work, and `callHook` on a name with no registered callbacks
returns plain undefined and leaves the machine untouched. -/
theorem C9_empty_dispatch {V : Type} (st : MState V) (args : List V)
    (name : String) (hh : st.hookable.hooks name = none) :
    (serialCaller st [] args).1.proms = st.proms ++ [.fulfilled .null] ∧
    (serialCaller st [] args).2 = st.proms.length ∧
    (serialCaller st [] args).1.queue = st.queue ∧
    (serialCaller st [] args).1.trace = st.trace ∧
    (serialCaller st [] args).1.hookable = st.hookable ∧
    callHook st name args = (st, .undef) :=
  ⟨rfl, rfl, rfl, rfl, rfl, callHook_none st name args hh⟩

theorem C9_witness :
    ((mkM emptyHookable : MState Nat).hookable.hooks "x" = none) ∧
    ((serialCaller (mkM emptyHookable : MState Nat) [] [4]).1.proms
        = (mkM emptyHookable : MState Nat).proms ++ [.fulfilled .null] ∧
     (serialCaller (mkM emptyHookable : MState Nat) [] [4]).2
        = (mkM emptyHookable : MState Nat).proms.length ∧
     (serialCaller (mkM emptyHookable : MState Nat) [] [4]).1.queue
        = (mkM emptyHookable : MState Nat).queue ∧
     (serialCaller (mkM emptyHookable : MState Nat) [] [4]).1.trace
        = (mkM emptyHookable : MState Nat).trace ∧
     (serialCaller (mkM emptyHookable : MState Nat) [] [4]).1.hookable
        = (mkM emptyHookable : MState Nat).hookable ∧
     callHook (mkM emptyHookable : MState Nat) "x" [4]
        = (mkM emptyHookable, .undef)) :=
  ⟨by decide, C9_empty_dispatch (mkM emptyHookable) [4] "x" (by decide)⟩

/-- C10: `callHook` returns the bare undefined — not an awaitable — when
no entry exists under the exact name, and otherwise (a registered,
necessarily non-empty sequence) always returns a promise, even when every
callback is synchronous, which ends fulfilled with the settled result of
the last registered callback. -/
theorem C10_callHook_return_shape {V : Type} (env : Env V) (st : MState V)
    (name : String) (args : List V) (hq : st.queue = []) :
    (st.hookable.hooks name = none → callHook st name args = (st, .undef)) ∧
    (∀ (t : Cb) (ts : List Cb), st.hookable.hooks name = some (t :: ts) →
      (callHook st name args).2 = .prom (st.proms.length + 1 + ts.length) ∧
      (run env (dispatchFuel env args st name)
          (callHook st name args).1).proms[st.proms.length + 1 + ts.length]?
        = some (.fulfilled (.v (cbBeh env (ts.getLastD t) args).ret))) :=
  ⟨fun hh => callHook_none st name args hh,
   fun t ts hh => callHook_last_value env st name args t ts hq hh⟩

theorem C10_witness :
    ((mkM (hook emptyHookable "a" (some (Cb.base 0)) 0).1 : MState Nat).queue = []) ∧
    (((mkM (hook emptyHookable "a" (some (Cb.base 0)) 0).1 : MState Nat).hookable.hooks "a"
        = none →
      callHook (mkM (hook emptyHookable "a" (some (Cb.base 0)) 0).1 : MState Nat) "a" [3]
        = (mkM (hook emptyHookable "a" (some (Cb.base 0)) 0).1, .undef)) ∧
     (∀ (t : Cb) (ts : List Cb),
      (mkM (hook emptyHookable "a" (some (Cb.base 0)) 0).1 : MState Nat).hookable.hooks "a"
          = some (t :: ts) →
      (callHook (mkM (hook emptyHookable "a" (some (Cb.base 0)) 0).1 : MState Nat) "a" [3]).2
          = .prom ((mkM (hook emptyHookable "a" (some (Cb.base 0)) 0).1 :
              MState Nat).proms.length + 1 + ts.length) ∧
      (run (fun i _ => (⟨[], none, i + 10⟩ : Beh Nat))
          (dispatchFuel (fun i _ => (⟨[], none, i + 10⟩ : Beh Nat)) [3]
            (mkM (hook emptyHookable "a" (some (Cb.base 0)) 0).1) "a")
          (callHook (mkM (hook emptyHookable "a" (some (Cb.base 0)) 0).1) "a"
            [3]).1).proms[(mkM (hook emptyHookable "a" (some (Cb.base 0)) 0).1 :
              MState Nat).proms.length + 1 + ts.length]?
        = some (.fulfilled (.v (cbBeh (fun i _ => (⟨[], none, i + 10⟩ : Beh Nat))
            (ts.getLastD t) [3]).ret)))) :=
  ⟨rfl, C10_callHook_return_shape (fun i _ => (⟨[], none, i + 10⟩ : Beh Nat))
     (mkM (hook emptyHookable "a" (some (Cb.base 0)) 0).1) "a" [3] rfl⟩

/-! ### Removal and counting lemmas -/

/-- Occurrences of a callback under a name (0 when the entry is absent). -/
def hookCount (h : Hookable) (name : String) (fn : Cb) : Nat :=
  ((h.hooks name).getD []).count fn

/-- The registry invariant: a present entry is never empty. -/
def wf (h : Hookable) : Prop :=
  ∀ n l, h.hooks n = some l → l ≠ []

theorem hookable_ext (h1 h2 : Hookable)
    (hh : ∀ n, h1.hooks n = h2.hooks n)
    (hd : ∀ n, h1.deprecatedHooks n = h2.deprecatedHooks n) : h1 = h2 := by
  cases h1
  cases h2
  simp only [Hookable.mk.injEq]
  exact ⟨funext hh, funext hd⟩

theorem removeFirst_not_mem (l : List Cb) (fn : Cb) (h : fn ∉ l) :
    removeFirst l fn = l := by
  induction l with
  | nil => rfl
  | cons x xs ih =>
    have hx : x ≠ fn := fun he => h (by simp [he])
    simp only [removeFirst, if_neg hx]
    rw [ih (fun hm => h (List.mem_cons_of_mem _ hm))]

theorem count_removeFirst_self (l : List Cb) (fn : Cb) :
    (removeFirst l fn).count fn = l.count fn - 1 := by
  induction l with
  | nil => rfl
  | cons x xs ih =>
    by_cases hx : x = fn
    · subst hx
      simp [removeFirst, List.count_cons]
    · simp only [removeFirst, if_neg hx, List.count_cons, ih]
      simp [hx]

theorem count_removeFirst_other (l : List Cb) (fn g : Cb) (hg : g ≠ fn) :
    (removeFirst l fn).count g = l.count g := by
  induction l with
  | nil => rfl
  | cons x xs ih =>
    by_cases hx : x = fn
    · subst hx
      simp [removeFirst, List.count_cons, Ne.symm hg]
    · simp only [removeFirst, if_neg hx, List.count_cons, ih]

/-- The entry under the removed name after a `removeHook` (absent
entry). -/
theorem removeHook_hooks_self_none (h : Hookable) (name : String) (fn : Cb)
    (hh : h.hooks name = none) :
    (removeHook h name fn).hooks name = none := by
  unfold removeHook
  rw [hh]
  exact hh

/-- The entry under the removed name after a `removeHook` (present
entry): splice out the first occurrence, deleting the entry if it ends
empty. -/
theorem removeHook_hooks_self_some (h : Hookable) (name : String) (fn : Cb) (l : List Cb)
    (hh : h.hooks name = some l) :
    (removeHook h name fn).hooks name
      = if removeFirst l fn = [] then none else some (removeFirst l fn) := by
  unfold removeHook
  rw [hh]
  by_cases hnil : removeFirst l fn = []
  · simp [hnil]
  · simp [hnil]

/-- `removeHook` removes exactly one occurrence of the callback (Nat
subtraction: zero stays zero when it was absent). -/
theorem removeHook_count_self (h : Hookable) (name : String) (fn : Cb) :
    hookCount (removeHook h name fn) name fn = hookCount h name fn - 1 := by
  unfold hookCount
  cases hh : h.hooks name with
  | none =>
    rw [removeHook_hooks_self_none h name fn hh]
    simp
  | some l =>
    rw [removeHook_hooks_self_some h name fn l hh]
    by_cases hnil : removeFirst l fn = []
    · rw [if_pos hnil]
      have hc := count_removeFirst_self l fn
      rw [hnil] at hc
      simpa using hc
    · rw [if_neg hnil]
      exact count_removeFirst_self l fn

/-- `removeHook` does not remove a different callback under the same
name. -/
theorem removeHook_count_other (h : Hookable) (name : String) (fn g : Cb) (hg : g ≠ fn) :
    hookCount (removeHook h name fn) name g = hookCount h name g := by
  unfold hookCount
  cases hh : h.hooks name with
  | none =>
    rw [removeHook_hooks_self_none h name fn hh]
  | some l =>
    rw [removeHook_hooks_self_some h name fn l hh]
    by_cases hnil : removeFirst l fn = []
    · rw [if_pos hnil]
      have hc := count_removeFirst_other l fn g hg
      rw [hnil] at hc
      simpa using hc
    · rw [if_neg hnil]
      exact count_removeFirst_other l fn g hg

/-- `removeHook` leaves every other name untouched. -/
theorem removeHook_other_name (h : Hookable) (name : String) (fn : Cb)
    (n : String) (hn : n ≠ name) :
    (removeHook h name fn).hooks n = h.hooks n := by
  unfold removeHook
  cases hh : h.hooks name with
  | none => rfl
  | some l =>
    by_cases hnil : removeFirst l fn = []
    · simp [hnil, hn]
    · simp [hnil, hn]

/-- Removing a callback that is not present (under a well-formed
registry) is a complete no-op. -/
theorem removeHook_absent_noop (h : Hookable) (name : String) (fn : Cb)
    (hwf : wf h) (habs : fn ∉ (h.hooks name).getD []) :
    removeHook h name fn = h := by
  unfold removeHook
  cases hh : h.hooks name with
  | none => rfl
  | some l =>
    rw [hh] at habs
    simp only [Option.getD_some] at habs
    have hrf : removeFirst l fn = l := removeFirst_not_mem l fn habs
    have hlne : l ≠ [] := hwf name l hh
    simp only [hrf, if_neg hlne]
    apply hookable_ext
    · intro n
      by_cases hn : n = name
      · subst hn
        simp [hh]
      · simp [hn]
    · intro n
      rfl

/-- C5: the unregister handle returned by `hook` captures the
deprecation-resolved name and the callback; its first call performs
exactly one `removeHook` — removing exactly one occurrence of `fn` and
no other callback, and touching no other name — and nulls the captured
callback, so every subsequent call (on any registry state) changes
nothing; removing an absent callback is a no-op and never throws. -/
theorem C5_unregister_handle (h : Hookable) (name rname : String) (fn : Cb)
    (fuel : Nat) (minfo : Option (Option String))
    (hname : name ≠ "")
    (hres : resolveDep h.deprecatedHooks fuel name none = some (rname, minfo)) :
    (hook h name (some fn) fuel).2.1 = ⟨rname, some fn⟩ ∧
    unregHandle (hook h name (some fn) fuel).1 (hook h name (some fn) fuel).2.1
      = (removeHook (hook h name (some fn) fuel).1 rname fn, ⟨rname, none⟩) ∧
    hookCount (removeHook (hook h name (some fn) fuel).1 rname fn) rname fn
      = hookCount (hook h name (some fn) fuel).1 rname fn - 1 ∧
    (∀ g : Cb, g ≠ fn →
      hookCount (removeHook (hook h name (some fn) fuel).1 rname fn) rname g
        = hookCount (hook h name (some fn) fuel).1 rname g) ∧
    (∀ n : String, n ≠ rname →
      (removeHook (hook h name (some fn) fuel).1 rname fn).hooks n
        = (hook h name (some fn) fuel).1.hooks n) ∧
    (∀ h2 : Hookable, unregHandle h2 (⟨rname, none⟩ : Handle) = (h2, ⟨rname, none⟩)) ∧
    (∀ (h2 : Hookable) (n : String) (g : Cb), wf h2 → g ∉ (h2.hooks n).getD [] →
      removeHook h2 n g = h2) := by
  have hk := hook_eq h name fn fuel rname minfo hname hres
  refine ⟨by rw [hk], ?_, removeHook_count_self _ rname fn,
    fun g hg => removeHook_count_other _ rname fn g hg,
    fun n hn => removeHook_other_name _ rname fn n hn,
    fun h2 => rfl,
    fun h2 n g hwf2 habs => removeHook_absent_noop h2 n g hwf2 habs⟩
  rw [hk]
  rfl

theorem C5_witness :
    (("a" : String) ≠ "") ∧
    (resolveDep emptyHookable.deprecatedHooks 0 "a" none
      = some ("a", (none : Option (Option String)))) ∧
    ((hook emptyHookable "a" (some (Cb.base 4)) 0).2.1 = ⟨"a", some (Cb.base 4)⟩ ∧
     unregHandle (hook emptyHookable "a" (some (Cb.base 4)) 0).1
        (hook emptyHookable "a" (some (Cb.base 4)) 0).2.1
       = (removeHook (hook emptyHookable "a" (some (Cb.base 4)) 0).1 "a" (Cb.base 4),
          ⟨"a", none⟩) ∧
     hookCount (removeHook (hook emptyHookable "a" (some (Cb.base 4)) 0).1 "a" (Cb.base 4))
        "a" (Cb.base 4)
       = hookCount (hook emptyHookable "a" (some (Cb.base 4)) 0).1 "a" (Cb.base 4) - 1 ∧
     (∀ g : Cb, g ≠ Cb.base 4 →
       hookCount (removeHook (hook emptyHookable "a" (some (Cb.base 4)) 0).1 "a" (Cb.base 4))
          "a" g
         = hookCount (hook emptyHookable "a" (some (Cb.base 4)) 0).1 "a" g) ∧
     (∀ n : String, n ≠ "a" →
       (removeHook (hook emptyHookable "a" (some (Cb.base 4)) 0).1 "a" (Cb.base 4)).hooks n
         = (hook emptyHookable "a" (some (Cb.base 4)) 0).1.hooks n) ∧
     (∀ h2 : Hookable, unregHandle h2 (⟨"a", none⟩ : Handle) = (h2, ⟨"a", none⟩)) ∧
     (∀ (h2 : Hookable) (n : String) (g : Cb), wf h2 → g ∉ (h2.hooks n).getD [] →
       removeHook h2 n g = h2)) :=
  ⟨by decide, by decide,
   C5_unregister_handle emptyHookable "a" "a" (Cb.base 4) 0 none (by decide) (by decide)⟩

/-! ### The non-empty-entry invariant (C8) -/

theorem wf_empty : wf emptyHookable := by
  intro n l hl
  cases hl

theorem wf_hook (h : Hookable) (name : String) (fnOpt : Option Cb) (fuel : Nat)
    (hwf : wf h) : wf (hook h name fnOpt fuel).1 := by
  cases fnOpt with
  | none => exact hwf
  | some fn =>
    by_cases hname : name = ""
    · have he : hook h name (some fn) fuel = (h, noopHandle, []) := by
        unfold hook
        simp only [if_pos hname]
      rw [he]
      exact hwf
    · cases hres : resolveDep h.deprecatedHooks fuel name none with
      | none =>
        have he : hook h name (some fn) fuel = (h, noopHandle, []) := by
          unfold hook
          simp only [if_neg hname, hres]
        rw [he]
        exact hwf
      | some pr =>
        obtain ⟨rname, minfo⟩ := pr
        rw [hook_eq h name fn fuel rname minfo hname hres]
        intro n l hl
        by_cases hn : n = rname
        · subst hn
          simp only [if_pos rfl] at hl
          injection hl with hl2
          rw [← hl2]
          simp
        · simp only [if_neg hn] at hl
          exact hwf n l hl

theorem wf_hookOnce (h : Hookable) (name : String) (uid inner fuel : Nat)
    (hwf : wf h) : wf (hookOnce h name uid inner fuel).1 := by
  unfold hookOnce
  cases hres : resolveDep h.deprecatedHooks fuel name none with
  | none => exact hwf
  | some pr => exact wf_hook h name _ fuel hwf

theorem wf_removeHook (h : Hookable) (name : String) (fn : Cb)
    (hwf : wf h) : wf (removeHook h name fn) := by
  intro n l hl
  by_cases hn : n = name
  · subst hn
    cases hh : h.hooks n with
    | none =>
      rw [removeHook_hooks_self_none h n fn hh] at hl
      cases hl
    | some l0 =>
      rw [removeHook_hooks_self_some h n fn l0 hh] at hl
      by_cases hnil : removeFirst l0 fn = []
      · rw [if_pos hnil] at hl
        cases hl
      · rw [if_neg hnil] at hl
        injection hl with hl2
        rw [← hl2]
        exact hnil
  · rw [removeHook_other_name h name fn n hn] at hl
    exact hwf n l hl

theorem wf_unregHandle (h : Hookable) (hd : Handle) (hwf : wf h) :
    wf (unregHandle h hd).1 := by
  unfold unregHandle
  cases hd.fn with
  | none => exact hwf
  | some fn => exact wf_removeHook h hd.name fn hwf

theorem wf_addHooks_fold (fuel : Nat) :
    ∀ (kvs : List (String × Nat)) (acc : Hookable × List Handle × List String),
    wf acc.1 →
    wf (kvs.foldl
      (fun acc kv =>
        let (h2, hd, ws) := hook acc.1 kv.1 (some (.base kv.2)) fuel
        (h2, acc.2.1 ++ [hd], acc.2.2 ++ ws)) acc).1 := by
  intro kvs
  induction kvs with
  | nil => intro acc h; exact h
  | cons kv rest ih =>
    intro acc hacc
    simp only [List.foldl_cons]
    exact ih _ (wf_hook acc.1 kv.1 _ fuel hacc)

theorem wf_addHooks (h : Hookable) (cfg : NestedHooks) (fuel : Nat)
    (hwf : wf h) : wf (addHooks h cfg fuel).1 := by
  unfold addHooks
  exact wf_addHooks_fold fuel (flatHooks cfg) (h, [], []) hwf

theorem wf_removeHooks (h : Hookable) (cfg : NestedHooks) (hwf : wf h) :
    wf (removeHooks h cfg) := by
  unfold removeHooks
  have : ∀ (kvs : List (String × Nat)) (h2 : Hookable), wf h2 →
      wf (kvs.foldl (fun acc kv => removeHook acc kv.1 (.base kv.2)) h2) := by
    intro kvs
    induction kvs with
    | nil => intro h2 hw; exact hw
    | cons kv rest ih =>
      intro h2 hw
      simp only [List.foldl_cons]
      exact ih _ (wf_removeHook h2 kv.1 _ hw)
  exact this (flatHooks cfg) h hwf

/-- A user-facing registry operation of the kinds the claim lists; the
handle list accumulates the unregister closures produced so far, and
`unregO i` calls the `i`-th one. -/
inductive UserOp where
  | hookO (name : String) (fn : Option Nat)
  | hookOnceO (name : String) (uid inner : Nat)
  | removeO (name : String) (fn : Cb)
  | addHooksO (cfg : NestedHooks)
  | removeHooksO (cfg : NestedHooks)
  | unregO (i : Nat)

def applyUserOp (fuel : Nat) : Hookable × List Handle → UserOp → Hookable × List Handle
  | (h, hs), .hookO name fn =>
    let (h2, hd, _) := hook h name (fn.map Cb.base) fuel
    (h2, hs ++ [hd])
  | (h, hs), .hookOnceO name uid inner =>
    let (h2, hd, _) := hookOnce h name uid inner fuel
    (h2, hs ++ [hd])
  | (h, hs), .removeO name fn => (removeHook h name fn, hs)
  | (h, hs), .addHooksO cfg =>
    let (h2, hds, _) := addHooks h cfg fuel
    (h2, hs ++ hds)
  | (h, hs), .removeHooksO cfg => (removeHooks h cfg, hs)
  | (h, hs), .unregO i =>
    match hs[i]? with
    | none => (h, hs)
    | some hd =>
      let (h2, hd2) := unregHandle h hd
      (h2, hs.set i hd2)

/-- Any sequence of user operations applied to a fresh instance. -/
def applyUserOps (fuel : Nat) (ops : List UserOp) : Hookable × List Handle :=
  ops.foldl (applyUserOp fuel) (emptyHookable, [])

theorem wf_applyUserOp (fuel : Nat) (st : Hookable × List Handle) (op : UserOp)
    (hwf : wf st.1) : wf (applyUserOp fuel st op).1 := by
  obtain ⟨h, hs⟩ := st
  cases op with
  | hookO name fn => exact wf_hook h name _ fuel hwf
  | hookOnceO name uid inner => exact wf_hookOnce h name uid inner fuel hwf
  | removeO name fn => exact wf_removeHook h name fn hwf
  | addHooksO cfg => exact wf_addHooks h cfg fuel hwf
  | removeHooksO cfg => exact wf_removeHooks h cfg hwf
  | unregO i =>
    show wf (match hs[i]? with
      | none => (h, hs)
      | some hd =>
        let (h2, hd2) := unregHandle h hd
        (h2, hs.set i hd2)).1
    cases hi : hs[i]? with
    | none => exact hwf
    | some hd => exact wf_unregHandle h hd hwf

/-- C8: after any sequence of `hook`, `hookOnce`, `removeHook`,
`addHooks`, `removeHooks` and unregister-handle calls starting from a
fresh instance, every name present in the hooks mapping maps to a
non-empty callback sequence — an entry is deleted, never left empty. -/
theorem C8_registry_invariant (fuel : Nat) (ops : List UserOp) :
    wf (applyUserOps fuel ops).1 := by
  unfold applyUserOps
  have : ∀ (l : List UserOp) (st : Hookable × List Handle), wf st.1 →
      wf (l.foldl (applyUserOp fuel) st).1 := by
    intro l
    induction l with
    | nil => intro st h; exact h
    | cons op rest ih =>
      intro st hst
      simp only [List.foldl_cons]
      exact ih _ (wf_applyUserOp fuel st op hst)
  exact this ops (emptyHookable, []) wf_empty

/-! ### Self-unregistration during dispatch (C6) -/

/-- Occurrences of invocation events of a given callback in a trace. -/
def countCalls (w : Cb) : List (Ev V) → Nat
  | [] => 0
  | .call cb _ :: r => (if cb = w then 1 else 0) + countCalls w r
  | .settled _ _ :: r => countCalls w r

theorem countCalls_append (w : Cb) (a b : List (Ev V)) :
    countCalls w (a ++ b) = countCalls w a + countCalls w b := by
  induction a with
  | nil => simp [countCalls]
  | cons e r ih =>
    cases e
    · simp [countCalls, ih]
      omega
    · simp [countCalls, ih]

theorem countCalls_callEvents (w : Cb) (tr : List (Ev V)) :
    countCalls w (callEvents tr) = countCalls w tr := by
  induction tr with
  | nil => rfl
  | cons e r ih =>
    cases e <;> simp [countCalls, callEvents, ih]

theorem countCalls_map_call (w : Cb) (args : List V) (ts : List Cb) :
    countCalls w (ts.map (fun c => Ev.call c args)) = ts.count w := by
  induction ts with
  | nil => rfl
  | cons c r ih =>
    simp only [List.map_cons, countCalls, ih, List.count_cons, beq_iff_eq]
    by_cases hc : c = w
    · simp [hc]
      omega
    · simp [hc, Ne.symm hc]

theorem hookCount_applyRegOp_le (h : Hookable) (op : RegOp) (name : String) (fn : Cb) :
    hookCount (applyRegOp h op) name fn ≤ hookCount h name fn := by
  obtain ⟨n, c⟩ := op
  show hookCount (removeHook h n c) name fn ≤ _
  by_cases hn : name = n
  · subst hn
    by_cases hf : fn = c
    · subst hf
      rw [removeHook_count_self]
      omega
    · rw [removeHook_count_other h name c fn hf]
  · unfold hookCount
    rw [removeHook_other_name h n c name hn]

theorem hookCount_applyRegOps_le (ops : List RegOp) :
    ∀ (h : Hookable) (name : String) (fn : Cb),
    hookCount (applyRegOps h ops) name fn ≤ hookCount h name fn := by
  induction ops with
  | nil => intro h name fn; exact Nat.le_refl _
  | cons op rest ih =>
    intro h name fn
    calc hookCount (applyRegOps h (op :: rest)) name fn
        = hookCount (applyRegOps (applyRegOp h op) rest) name fn := rfl
      _ ≤ hookCount (applyRegOp h op) name fn := ih _ name fn
      _ ≤ hookCount h name fn := hookCount_applyRegOp_le h op name fn

theorem hookCount_applyCbs_le (env : Env V) (args : List V) (ts : List Cb) :
    ∀ (h : Hookable) (name : String) (fn : Cb),
    hookCount (applyCbs env args h ts) name fn ≤ hookCount h name fn := by
  induction ts with
  | nil => intro h name fn; exact Nat.le_refl _
  | cons t rest ih =>
    intro h name fn
    calc hookCount (applyCbs env args h (t :: rest)) name fn
        = hookCount (applyCbs env args (applyRegOps h (cbBeh env t args).ops) rest) name fn
          := rfl
      _ ≤ hookCount (applyRegOps h (cbBeh env t args).ops) name fn := ih _ name fn
      _ ≤ hookCount h name fn := hookCount_applyRegOps_le _ h name fn

/-- Running the `hookOnce` wrapper removes it: whatever its inner
callback does afterwards, the wrapper's count under its registration name
drops to zero (its first action is its own unregistration). -/
theorem wrapper_step_zero (env : Env V) (args : List V) (h : Hookable)
    (uid inner : Nat) (rname : String)
    (hle : hookCount h rname (Cb.onceWrap uid rname inner) ≤ 1) :
    hookCount (applyRegOps h (cbBeh env (Cb.onceWrap uid rname inner) args).ops)
      rname (Cb.onceWrap uid rname inner) = 0 := by
  have hstep : applyRegOps h (cbBeh env (Cb.onceWrap uid rname inner) args).ops
      = applyRegOps (removeHook h rname (Cb.onceWrap uid rname inner))
          (env inner args).ops := rfl
  rw [hstep]
  have h0 : hookCount (removeHook h rname (Cb.onceWrap uid rname inner))
      rname (Cb.onceWrap uid rname inner) = 0 := by
    rw [removeHook_count_self]
    omega
  have := hookCount_applyRegOps_le (env inner args).ops
    (removeHook h rname (Cb.onceWrap uid rname inner)) rname
    (Cb.onceWrap uid rname inner)
  omega

/-- After a dispatch whose snapshot contains the wrapper, the wrapper is
gone from its registration name. -/
theorem applyCbs_wrapper_zero (env : Env V) (args : List V) (uid inner : Nat)
    (rname : String) :
    ∀ (pre post : List Cb) (h : Hookable),
    hookCount h rname (Cb.onceWrap uid rname inner) ≤ 1 →
    hookCount (applyCbs env args h (pre ++ Cb.onceWrap uid rname inner :: post))
      rname (Cb.onceWrap uid rname inner) = 0 := by
  intro pre
  induction pre with
  | nil =>
    intro post h hle
    have h0 := wrapper_step_zero env args h uid inner rname hle
    have := hookCount_applyCbs_le env args post
      (applyRegOps h (cbBeh env (Cb.onceWrap uid rname inner) args).ops) rname
      (Cb.onceWrap uid rname inner)
    have heq : applyCbs env args h (Cb.onceWrap uid rname inner :: post)
        = applyCbs env args
            (applyRegOps h (cbBeh env (Cb.onceWrap uid rname inner) args).ops) post := rfl
    rw [List.nil_append, heq]
    omega
  | cons p rest ih =>
    intro post h hle
    have heq : applyCbs env args h ((p :: rest) ++ Cb.onceWrap uid rname inner :: post)
        = applyCbs env args (applyRegOps h (cbBeh env p args).ops)
            (rest ++ Cb.onceWrap uid rname inner :: post) := rfl
    rw [heq]
    apply ih
    have := hookCount_applyRegOps_le (cbBeh env p args).ops h rname
      (Cb.onceWrap uid rname inner)
    omega

theorem wf_applyRegOps (ops : List RegOp) :
    ∀ (h : Hookable), wf h → wf (applyRegOps h ops) := by
  induction ops with
  | nil => intro h hw; exact hw
  | cons op rest ih =>
    intro h hw
    obtain ⟨n, c⟩ := op
    exact ih _ (wf_removeHook h n c hw)

theorem wf_applyCbs (env : Env V) (args : List V) (ts : List Cb) :
    ∀ (h : Hookable), wf h → wf (applyCbs env args h ts) := by
  induction ts with
  | nil => intro h hw; exact hw
  | cons t rest ih =>
    intro h hw
    exact ih _ (wf_applyRegOps (cbBeh env t args).ops h hw)

theorem hookOnce_eq (h : Hookable) (name : String) (uid inner fuel : Nat)
    (rname : String) (minfo : Option (Option String))
    (hres : resolveDep h.deprecatedHooks fuel name none = some (rname, minfo)) :
    hookOnce h name uid inner fuel
      = hook h name (some (.onceWrap uid rname inner)) fuel := by
  unfold hookOnce
  simp only [hres]

/-- C6: unregistration during dispatch is safe. (i) The snapshot taken
when a dispatch begins is invoked in full, in order, exactly once each —
whatever removals the callbacks perform meanwhile (the chain is built
synchronously before any callback runs, so removals only affect later
dispatches). (ii) A `hookOnce` wrapper — which unregisters itself during
its own invocation — is invoked exactly once across two successive
`callHook` calls on the same (resolved) name. -/
theorem C6_unregistration_during_dispatch {V : Type} (env : Env V) (args : List V) :
    (∀ (st : MState V) (name : String) (t : Cb) (ts : List Cb),
      st.queue = [] → st.hookable.hooks name = some (t :: ts) →
      callEvents (run env (dispatchFuel env args st name) (callHook st name args).1).trace
        = callEvents st.trace ++ (t :: ts).map (fun c => Ev.call c args)) ∧
    (∀ (h : Hookable) (name rname : String) (uid inner fuel : Nat)
       (minfo : Option (Option String)),
      name ≠ "" →
      resolveDep h.deprecatedHooks fuel name none = some (rname, minfo) →
      wf h →
      hookCount h rname (Cb.onceWrap uid rname inner) = 0 →
      countCalls (Cb.onceWrap uid rname inner)
        (run env (dispatchFuel env args (mkM (hookOnce h name uid inner fuel).1) rname)
          (callHook (mkM (hookOnce h name uid inner fuel).1) rname args).1).trace = 1 ∧
      countCalls (Cb.onceWrap uid rname inner)
        (run env (dispatchFuel env args
            (run env (dispatchFuel env args (mkM (hookOnce h name uid inner fuel).1) rname)
              (callHook (mkM (hookOnce h name uid inner fuel).1) rname args).1) rname)
          (callHook
            (run env (dispatchFuel env args (mkM (hookOnce h name uid inner fuel).1) rname)
              (callHook (mkM (hookOnce h name uid inner fuel).1) rname args).1)
            rname args).1).trace = 1) := by
  constructor
  · intro st name t ts hq hh
    exact callHook_calls env st name args t ts hq hh
  · intro h name rname uid inner fuel minfo hname hres hwf hfresh
    have hko := hookOnce_eq h name uid inner fuel rname minfo hres
    have hk := hook_eq h name (Cb.onceWrap uid rname inner) fuel rname minfo hname hres
    have hH2 : (hookOnce h name uid inner fuel).1.hooks rname
        = some ((h.hooks rname).getD [] ++ [Cb.onceWrap uid rname inner]) := by
      rw [hko, hk]
      simp
    have hprevcount : ((h.hooks rname).getD []).count (Cb.onceWrap uid rname inner) = 0 :=
      hfresh
    have hH2count : hookCount (hookOnce h name uid inner fuel).1 rname
        (Cb.onceWrap uid rname inner) = 1 := by
      unfold hookCount
      rw [hH2]
      simp [List.count_append, hprevcount]
    have hwfH2 : wf (hookOnce h name uid inner fuel).1 :=
      wf_hookOnce h name uid inner fuel hwf
    -- the first dispatch, uniformly over the shape of the prior entry
    have hA : callEvents (run env
          (dispatchFuel env args (mkM (hookOnce h name uid inner fuel).1) rname)
          (callHook (mkM (hookOnce h name uid inner fuel).1) rname args).1).trace
        = ((h.hooks rname).getD [] ++ [Cb.onceWrap uid rname inner]).map
            (fun c => Ev.call c args) ∧
        (run env (dispatchFuel env args (mkM (hookOnce h name uid inner fuel).1) rname)
          (callHook (mkM (hookOnce h name uid inner fuel).1) rname args).1).hookable
        = applyCbs env args (hookOnce h name uid inner fuel).1
            ((h.hooks rname).getD [] ++ [Cb.onceWrap uid rname inner]) ∧
        (run env (dispatchFuel env args (mkM (hookOnce h name uid inner fuel).1) rname)
          (callHook (mkM (hookOnce h name uid inner fuel).1) rname args).1).queue = [] := by
      cases hp : (h.hooks rname).getD [] with
      | nil =>
        have hh2 : (mkM (hookOnce h name uid inner fuel).1 : MState V).hookable.hooks rname
            = some [Cb.onceWrap uid rname inner] := by
          show (hookOnce h name uid inner fuel).1.hooks rname = _
          rw [hH2, hp]
          rfl
        have hc := callHook_calls env (mkM (hookOnce h name uid inner fuel).1) rname args
          (Cb.onceWrap uid rname inner) [] rfl hh2
        have hf := callHook_final_state env (mkM (hookOnce h name uid inner fuel).1)
          rname args (Cb.onceWrap uid rname inner) [] rfl hh2
        refine ⟨?_, ?_, hf.2.1⟩
        · rw [hc]
          simp [mkM, callEvents, hp]
        · rw [hf.1]
          rfl
      | cons p ps =>
        have hh2 : (mkM (hookOnce h name uid inner fuel).1 : MState V).hookable.hooks rname
            = some (p :: (ps ++ [Cb.onceWrap uid rname inner])) := by
          show (hookOnce h name uid inner fuel).1.hooks rname = _
          rw [hH2, hp]
          rfl
        have hc := callHook_calls env (mkM (hookOnce h name uid inner fuel).1) rname args
          p (ps ++ [Cb.onceWrap uid rname inner]) rfl hh2
        have hf := callHook_final_state env (mkM (hookOnce h name uid inner fuel).1)
          rname args p (ps ++ [Cb.onceWrap uid rname inner]) rfl hh2
        refine ⟨?_, ?_, hf.2.1⟩
        · rw [hc]
          simp [mkM, callEvents, hp]
        · rw [hf.1]
          rfl
    obtain ⟨hA1, hA2, hA3⟩ := hA
    have hcount1 : countCalls (Cb.onceWrap uid rname inner)
        (run env (dispatchFuel env args (mkM (hookOnce h name uid inner fuel).1) rname)
          (callHook (mkM (hookOnce h name uid inner fuel).1) rname args).1).trace = 1 := by
      rw [← countCalls_callEvents, hA1, countCalls_map_call]
      simp [List.count_append, hprevcount]
    refine ⟨hcount1, ?_⟩
    have hm0 : hookCount
        (run env (dispatchFuel env args (mkM (hookOnce h name uid inner fuel).1) rname)
          (callHook (mkM (hookOnce h name uid inner fuel).1) rname args).1).hookable
        rname (Cb.onceWrap uid rname inner) = 0 := by
      rw [hA2]
      exact applyCbs_wrapper_zero env args uid inner rname ((h.hooks rname).getD []) []
        (hookOnce h name uid inner fuel).1 (by omega)
    have hwfmid : wf
        (run env (dispatchFuel env args (mkM (hookOnce h name uid inner fuel).1) rname)
          (callHook (mkM (hookOnce h name uid inner fuel).1) rname args).1).hookable := by
      rw [hA2]
      exact wf_applyCbs env args _ _ hwfH2
    cases hmid : (run env
        (dispatchFuel env args (mkM (hookOnce h name uid inner fuel).1) rname)
        (callHook (mkM (hookOnce h name uid inner fuel).1) rname args).1).hookable.hooks
        rname with
    | none =>
      rw [callHook_none _ rname args hmid]
      rw [run_empty env _ _ hA3]
      exact hcount1
    | some ts2 =>
      cases ts2 with
      | nil => exact absurd rfl (hwfmid rname [] hmid)
      | cons t2 l2 =>
        have hB := callHook_calls env _ rname args t2 l2 hA3 hmid
        rw [← countCalls_callEvents, hB, countCalls_append, countCalls_callEvents,
          hcount1, countCalls_map_call]
        have : (t2 :: l2).count (Cb.onceWrap uid rname inner) = 0 := by
          have := hm0
          unfold hookCount at this
          rw [hmid] at this
          simpa using this
        rw [this]

theorem C6_witness :
    (callEvents (run (fun i _ => (⟨[], none, i⟩ : Beh Nat))
        (dispatchFuel (fun i _ => (⟨[], none, i⟩ : Beh Nat)) [2] (mkM (hook emptyHookable "n" (some (Cb.base 5)) 0).1 : MState Nat) "n")
        (callHook (mkM (hook emptyHookable "n" (some (Cb.base 5)) 0).1 : MState Nat) "n" [2]).1).trace
      = callEvents (mkM (hook emptyHookable "n" (some (Cb.base 5)) 0).1 : MState Nat).trace
        ++ [Cb.base 5].map (fun c => Ev.call c [2])) ∧
    (countCalls (Cb.onceWrap 0 "n" 1) (run (fun i _ => (⟨[], none, i⟩ : Beh Nat)) (dispatchFuel (fun i _ => (⟨[], none, i⟩ : Beh Nat)) [2] (mkM (hookOnce emptyHookable "n" 0 1 0).1 : MState Nat) "n") (callHook (mkM (hookOnce emptyHookable "n" 0 1 0).1 : MState Nat) "n" [2]).1).trace = 1 ∧
     countCalls (Cb.onceWrap 0 "n" 1)
       (run (fun i _ => (⟨[], none, i⟩ : Beh Nat)) (dispatchFuel (fun i _ => (⟨[], none, i⟩ : Beh Nat)) [2] (run (fun i _ => (⟨[], none, i⟩ : Beh Nat)) (dispatchFuel (fun i _ => (⟨[], none, i⟩ : Beh Nat)) [2] (mkM (hookOnce emptyHookable "n" 0 1 0).1 : MState Nat) "n") (callHook (mkM (hookOnce emptyHookable "n" 0 1 0).1 : MState Nat) "n" [2]).1) "n")
         (callHook (run (fun i _ => (⟨[], none, i⟩ : Beh Nat)) (dispatchFuel (fun i _ => (⟨[], none, i⟩ : Beh Nat)) [2] (mkM (hookOnce emptyHookable "n" 0 1 0).1 : MState Nat) "n") (callHook (mkM (hookOnce emptyHookable "n" 0 1 0).1 : MState Nat) "n" [2]).1) "n" [2]).1).trace = 1) :=
  ⟨(C6_unregistration_during_dispatch (fun i _ => (⟨[], none, i⟩ : Beh Nat)) [2]).1
     (mkM (hook emptyHookable "n" (some (Cb.base 5)) 0).1 : MState Nat) "n" (Cb.base 5) [] rfl (by decide),
   (C6_unregistration_during_dispatch (fun i _ => (⟨[], none, i⟩ : Beh Nat)) [2]).2
     emptyHookable "n" "n" 0 1 0 none (by decide) (by decide) wf_empty (by decide)⟩

/-! ### The parallel caller (C4) -/

/-- Item `i`'s own result has settled: trivial for a plain value,
fulfilment of its promise otherwise. -/
def itemSettled (st : MState V) (items : List (CallRes V)) (i : Nat) : Prop :=
  match items[i]? with
  | some (.prom q) => ∃ v, st.proms[q]? = some (Prom.fulfilled v)
  | _ => True

/-- The only reactions alive during a parallel dispatch: slot `i` of the
single `Promise.all` group, registered on item `i`'s promise. -/
def reactOK (items : List (CallRes V)) (p : Nat) : Reaction V → Prop
  | .allSlot g i => g = 0 ∧ items[i]? = some (CallRes.prom p)
  | _ => False

/-- The only jobs alive during a parallel dispatch: countdowns for the
item promises (never the combined promise) and slot reactions fired only
after their item settled. -/
def jobOK (st : MState V) (items : List (CallRes V)) (target : Nat) : Job V → Prop
  | .settleLater _ p _ => p ≠ target
  | .react r _ => ∃ i : Nat, r = Reaction.allSlot 0 i ∧ itemSettled st items i

/-- Configuration invariant of a running parallel dispatch. -/
structure ParCfg (st : MState V) (target : Nat) (items : List (CallRes V))
    (slots : List (Option (JVal V))) : Prop where
  groups_eq : st.groups = [⟨slots, target⟩]
  slots_len : slots.length = items.length
  slots_settled : ∀ (i : Nat) (jv : JVal V), slots[i]? = some (some jv) → itemSettled st items i
  target_state : st.proms[target]? = some (.pending [])
    ∨ ∃ v : JVal V, st.proms[target]? = some (.fulfilled v)
  full_target : (∃ v : JVal V, st.proms[target]? = some (.fulfilled v)) →
    ∀ sl ∈ slots, sl.isSome
  items_not_target : ∀ (i q : Nat), items[i]? = some (CallRes.prom q) → q ≠ target
  queue_ok : ∀ j ∈ st.queue, jobOK st items target j
  reacts_ok : ∀ (p : Nat) (rs : List (Reaction V)),
    st.proms[p]? = some (.pending rs) → ∀ r ∈ rs, reactOK items p r

theorem itemSettled_mono (st st2 : MState V) (items : List (CallRes V)) (i : Nat)
    (hm : ∀ (q : Nat) (v : JVal V), st.proms[q]? = some (Prom.fulfilled v)
      → st2.proms[q]? = some (Prom.fulfilled v))
    (h : itemSettled st items i) : itemSettled st2 items i := by
  unfold itemSettled at h ⊢
  cases hi : items[i]? with
  | none => trivial
  | some r =>
    cases r with
    | val x => trivial
    | prom q =>
      rw [hi] at h
      obtain ⟨v, hv⟩ := h
      exact ⟨v, hm q v hv⟩

/-- Fulfilling a pending promise never unfulfils another. -/
theorem fulfilled_mono_fulfill (st : MState V) (p : Nat) (jv : JVal V) :
    ∀ (q : Nat) (v : JVal V), st.proms[q]? = some (Prom.fulfilled v)
      → (fulfillProm st p jv).proms[q]? = some (Prom.fulfilled v) := by
  intro q v hv
  unfold fulfillProm
  cases hpp : st.proms[p]? with
  | none => exact hv
  | some pr =>
    cases pr with
    | fulfilled w => exact hv
    | pending rs =>
      by_cases hpq : p = q
      · subst hpq
        rw [hpp] at hv
        cases hv
      · show (st.proms.set p (Prom.fulfilled jv))[q]? = _
        rw [List.getElem?_set_ne hpq]
        exact hv

theorem fulfillProm_noop (st : MState V) (pid : Nat) (jv : JVal V)
    (h : st.proms[pid]? = none ∨ ∃ v : JVal V, st.proms[pid]? = some (.fulfilled v)) :
    fulfillProm st pid jv = st := by
  unfold fulfillProm
  rcases h with h | ⟨v, h⟩ <;> rw [h]

theorem callEvents_snoc_settled (tr : List (Ev V)) (p : Nat) (jv : JVal V) :
    callEvents (tr ++ [.settled p jv]) = callEvents tr := by
  rw [callEvents_append]
  simp [callEvents]

theorem jobOK_mono (st st2 : MState V) (items : List (CallRes V)) (target : Nat)
    (hm : ∀ (q : Nat) (v : JVal V), st.proms[q]? = some (Prom.fulfilled v)
      → st2.proms[q]? = some (Prom.fulfilled v)) :
    ∀ j, jobOK st items target j → jobOK st2 items target j := by
  intro j hj
  cases j with
  | settleLater k p v => exact hj
  | react r jv =>
    obtain ⟨i, rfl, hs⟩ := hj
    exact ⟨i, rfl, itemSettled_mono st st2 items i hm hs⟩

theorem groupFill_eq (st : MState V) (i : Nat) (jv : JVal V)
    (slots : List (Option (JVal V))) (target : Nat)
    (hg : st.groups = [⟨slots, target⟩]) :
    groupFill st 0 i jv =
      (if (slots.set i (some jv)).all Option.isSome then
        fulfillProm { st with groups := [⟨slots.set i (some jv), target⟩] } target
          (.arr ((slots.set i (some jv)).map (fun o => o.getD .null)))
      else { st with groups := [⟨slots.set i (some jv), target⟩] }) := by
  unfold groupFill
  rw [hg]
  simp only [List.getElem?_cons_zero, List.set_cons_zero]

/-- One machine step preserves the parallel-dispatch configuration and
adds no invocation events: no callback ever runs after the synchronous
map phase. -/
theorem parCfg_step (env : Env V) (st : MState V) (target : Nat)
    (items : List (CallRes V)) (slots : List (Option (JVal V)))
    (hcfg : ParCfg st target items slots) :
    ∃ slots2, ParCfg (step env st) target items slots2 ∧
      callEvents (step env st).trace = callEvents st.trace := by
  obtain ⟨hg, hsl, hss, hts, hft, hint, hqo, hro⟩ := hcfg
  cases hq : st.queue with
  | nil =>
    rw [step_empty env st hq]
    exact ⟨slots, ⟨hg, hsl, hss, hts, hft, hint, hqo, hro⟩, rfl⟩
  | cons job rest =>
    have hrest : ∀ j ∈ rest, jobOK st items target j := by
      intro j hj
      exact hqo j (hq ▸ List.mem_cons_of_mem _ hj)
    have hhead : jobOK st items target job := hqo job (hq ▸ List.mem_cons_self _ _)
    cases job with
    | settleLater k p v =>
      have hpt : p ≠ target := hhead
      cases k with
      | zero =>
        have hstep : step env st = fulfillProm { st with queue := rest } p (.v v) := by
          unfold step
          rw [hq]
        rw [hstep]
        cases hpp : st.proms[p]? with
        | none =>
          rw [fulfillProm_noop { st with queue := rest } p (JVal.v v) (Or.inl hpp)]
          refine ⟨slots, ⟨hg, hsl, hss, hts, hft, hint, ?_, hro⟩, rfl⟩
          intro j hj
          exact hrest j hj
        | some pr =>
          cases pr with
          | fulfilled w =>
            rw [fulfillProm_noop { st with queue := rest } p (JVal.v v) (Or.inr ⟨w, hpp⟩)]
            refine ⟨slots, ⟨hg, hsl, hss, hts, hft, hint, ?_, hro⟩, rfl⟩
            intro j hj
            exact hrest j hj
          | pending rs =>
            rw [fulfillProm_eq { st with queue := rest } p (JVal.v v) rs hpp]
            have hplt : p < st.proms.length := getElem?_some_lt hpp
            have hmono : ∀ (q : Nat) (w : JVal V),
                st.proms[q]? = some (Prom.fulfilled w) →
                (st.proms.set p (Prom.fulfilled (JVal.v v)))[q]? = some (Prom.fulfilled w) := by
              intro q w hw
              by_cases hpq : p = q
              · subst hpq
                rw [hpp] at hw
                cases hw
              · rw [List.getElem?_set_ne hpq]
                exact hw
            refine ⟨slots, ⟨hg, hsl, ?_, ?_, ?_, hint, ?_, ?_⟩, ?_⟩
            · intro i jv2 hi
              exact itemSettled_mono st _ items i hmono (hss i jv2 hi)
            · rcases hts with hpend | ⟨w, hful⟩
              · left
                show (st.proms.set p (Prom.fulfilled (JVal.v v)))[target]? = _
                rw [List.getElem?_set_ne hpt]
                exact hpend
              · right
                exact ⟨w, hmono target w hful⟩
            · intro hex
              obtain ⟨w, hw⟩ := hex
              apply hft
              refine ⟨w, ?_⟩
              have hw2 : (st.proms.set p (Prom.fulfilled (JVal.v v)))[target]?
                  = some (Prom.fulfilled w) := hw
              rw [List.getElem?_set_ne hpt] at hw2
              exact hw2
            · intro j hj
              rcases List.mem_append.mp hj with hj1 | hj2
              · exact jobOK_mono st _ items target hmono j (hrest j hj1)
              · obtain ⟨r, hr, rfl⟩ := List.mem_map.mp hj2
                have hok := hro p rs hpp r hr
                cases r with
                | allSlot g i =>
                  obtain ⟨hg0, hitem⟩ := hok
                  subst hg0
                  refine ⟨i, rfl, ?_⟩
                  unfold itemSettled
                  rw [hitem]
                  refine ⟨JVal.v v, ?_⟩
                  show (st.proms.set p (Prom.fulfilled (JVal.v v)))[p]? = _
                  rw [List.getElem?_set_self hplt]
                | link t2 => cases hok
                | thenRun cb args2 t2 => cases hok
            · intro p2 rs2 hp2 r hr
              by_cases hpq : p = p2
              · subst hpq
                have : (st.proms.set p (Prom.fulfilled (JVal.v v)))[p]?
                    = some (Prom.pending rs2) := hp2
                rw [List.getElem?_set_self hplt] at this
                cases this
              · have : (st.proms.set p (Prom.fulfilled (JVal.v v)))[p2]?
                    = some (Prom.pending rs2) := hp2
                rw [List.getElem?_set_ne hpq] at this
                exact hro p2 rs2 this r hr
            · exact callEvents_snoc_settled st.trace p (JVal.v v)
      | succ k2 =>
        have hstep : step env st
            = { st with queue := rest ++ [.settleLater k2 p v] } := by
          unfold step
          rw [hq]
        rw [hstep]
        refine ⟨slots, ⟨hg, hsl, hss, hts, hft, hint, ?_, hro⟩, rfl⟩
        intro j hj
        rcases List.mem_append.mp hj with hj1 | hj2
        · exact hrest j hj1
        · have : j = Job.settleLater k2 p v := by simpa using hj2
          rw [this]
          exact hpt
    | react r jv =>
      obtain ⟨i, rfl, hsett⟩ := hhead
      have hstep : step env st = groupFill { st with queue := rest } 0 i jv := by
        unfold step
        rw [hq]
      rw [hstep, groupFill_eq { st with queue := rest } i jv slots target hg]
      by_cases hall : ((slots.set i (some jv)).all Option.isSome) = true
      · rw [if_pos hall]
        have hslset : ∀ (j : Nat) (jv2 : JVal V),
            (slots.set i (some jv))[j]? = some (some jv2) → itemSettled st items j := by
          intro j jv2 hj
          by_cases hij : i = j
          · subst hij
            by_cases hil : i < slots.length
            · exact hsett
            · rw [List.set_eq_of_length_le (Nat.le_of_not_lt hil)] at hj
              exact hss i jv2 hj
          · rw [List.getElem?_set_ne hij] at hj
            exact hss j jv2 hj
        rcases hts with hpend | ⟨w, hful⟩
        · rw [fulfillProm_eq
            { st with queue := rest, groups := [⟨slots.set i (some jv), target⟩] }
            target (JVal.arr ((slots.set i (some jv)).map (fun o => o.getD .null)))
            [] hpend]
          have hmono : ∀ (q : Nat) (w : JVal V),
              st.proms[q]? = some (Prom.fulfilled w) →
              (st.proms.set target (Prom.fulfilled
                (JVal.arr ((slots.set i (some jv)).map (fun o => o.getD .null)))))[q]?
                = some (Prom.fulfilled w) := by
            intro q w hw
            by_cases htq : target = q
            · subst htq
              rw [hpend] at hw
              cases hw
            · rw [List.getElem?_set_ne htq]
              exact hw
          have htlt : target < st.proms.length := getElem?_some_lt hpend
          refine ⟨slots.set i (some jv), ⟨rfl, by simp [hsl], ?_, ?_, ?_, hint, ?_, ?_⟩, ?_⟩
          · intro j jv2 hj
            exact itemSettled_mono st _ items j hmono (hslset j jv2 hj)
          · right
            refine ⟨JVal.arr ((slots.set i (some jv)).map (fun o => o.getD JVal.null)), ?_⟩
            show (st.proms.set target
              (Prom.fulfilled (JVal.arr ((slots.set i (some jv)).map
                (fun o => o.getD JVal.null)))))[target]? = _
            rw [List.getElem?_set_self htlt]
          · intro _
            intro sl hsl2
            have := List.all_eq_true.mp hall sl hsl2
            exact this
          · intro j hj
            simp only [List.append_nil, List.map_nil] at hj
            exact jobOK_mono st _ items target hmono j (hrest j hj)
          · intro p2 rs2 hp2 r hr
            by_cases htq : target = p2
            · subst htq
              have : (st.proms.set target (Prom.fulfilled _))[target]?
                  = some (Prom.pending rs2) := hp2
              rw [List.getElem?_set_self htlt] at this
              cases this
            · have : (st.proms.set target _)[p2]? = some (Prom.pending rs2) := hp2
              rw [List.getElem?_set_ne htq] at this
              exact hro p2 rs2 this r hr
          · exact callEvents_snoc_settled st.trace target _
        · rw [fulfillProm_noop
            { st with queue := rest, groups := [⟨slots.set i (some jv), target⟩] }
            target (JVal.arr ((slots.set i (some jv)).map (fun o => o.getD .null)))
            (Or.inr ⟨w, hful⟩)]
          refine ⟨slots.set i (some jv), ⟨rfl, by simp [hsl], hslset, Or.inr ⟨w, hful⟩,
            ?_, hint, ?_, hro⟩, rfl⟩
          · intro _
            intro sl hsl2
            exact List.all_eq_true.mp hall sl hsl2
          · intro j hj
            exact hrest j hj
      · rw [if_neg hall]
        have hslset : ∀ (j : Nat) (jv2 : JVal V),
            (slots.set i (some jv))[j]? = some (some jv2) → itemSettled st items j := by
          intro j jv2 hj
          by_cases hij : i = j
          · subst hij
            by_cases hil : i < slots.length
            · exact hsett
            · rw [List.set_eq_of_length_le (Nat.le_of_not_lt hil)] at hj
              exact hss i jv2 hj
          · rw [List.getElem?_set_ne hij] at hj
            exact hss j jv2 hj
        refine ⟨slots.set i (some jv), ⟨rfl, by simp [hsl], hslset, hts, ?_, hint, ?_, hro⟩,
          rfl⟩
        · intro hex sl hsl2
          rcases List.mem_or_eq_of_mem_set hsl2 with hm | hm
          · exact hft hex sl hm
          · rw [hm]
            rfl
        · intro j hj
          exact hrest j hj

theorem parCfg_run (env : Env V) :
    ∀ (fuel : Nat) (st : MState V) (target : Nat) (items : List (CallRes V))
      (slots : List (Option (JVal V))),
    ParCfg st target items slots →
    ∃ slots2, ParCfg (run env fuel st) target items slots2 ∧
      callEvents (run env fuel st).trace = callEvents st.trace := by
  intro fuel
  induction fuel with
  | zero =>
    intro st target items slots hcfg
    exact ⟨slots, hcfg, rfl⟩
  | succ n ih =>
    intro st target items slots hcfg
    obtain ⟨slots2, hcfg2, htr2⟩ := parCfg_step env st target items slots hcfg
    obtain ⟨slots3, hcfg3, htr3⟩ := ih (step env st) target items slots2 hcfg2
    refine ⟨slots3, hcfg3, ?_⟩
    show callEvents (run env n (step env st)).trace = _
    rw [htr3, htr2]

/-- In a parallel configuration, a fulfilled combined promise means every
item's own result has settled. -/
theorem parCfg_settled (st : MState V) (target : Nat) (items : List (CallRes V))
    (slots : List (Option (JVal V))) (hcfg : ParCfg st target items slots)
    (v : JVal V) (hful : st.proms[target]? = some (Prom.fulfilled v)) :
    ∀ i : Nat, itemSettled st items i := by
  intro i
  unfold itemSettled
  cases hi : items[i]? with
  | none => trivial
  | some r =>
    cases r with
    | val x => trivial
    | prom q =>
      have hil : i < items.length := getElem?_some_lt hi
      have hisl : i < slots.length := by rw [hcfg.slots_len]; exact hil
      have hslget : slots[i]? = some (slots[i]) := List.getElem?_eq_getElem hisl
      have hmem : slots[i] ∈ slots := List.getElem_mem hisl
      have hsome : (slots[i]).isSome := hcfg.full_target ⟨v, hful⟩ _ hmem
      obtain ⟨jv, hjv⟩ := Option.isSome_iff_exists.mp hsome
      have hsett := hcfg.slots_settled i jv (by rw [hslget, hjv])
      unfold itemSettled at hsett
      rw [hi] at hsett
      exact hsett

theorem getElem?_append_elim {A : Type} (l : List A) (a : A) (i : Nat) (x : A)
    (h : (l ++ [a])[i]? = some x) : l[i]? = some x ∨ x = a := by
  by_cases hi : i < l.length
  · left
    rw [List.getElem?_append_left hi] at h
    exact h
  · right
    rw [List.getElem?_append_right (Nat.le_of_not_lt hi)] at h
    cases hd : i - l.length with
    | zero =>
      rw [hd] at h
      injection h with h
      exact h.symm
    | succ n =>
      rw [hd] at h
      simp at h

theorem invokeCb_sync (env : Env V) (st : MState V) (cb : Cb) (args : List V)
    (hdelay : (cbBeh env cb args).delay = none) :
    invokeCb env st cb args =
      ({ st with trace := st.trace ++ [.call cb args],
                 hookable := applyRegOps st.hookable (cbBeh env cb args).ops },
       .val (cbBeh env cb args).ret) := by
  unfold invokeCb
  simp only [hdelay]

theorem invokeCb_async (env : Env V) (st : MState V) (cb : Cb) (args : List V) (k : Nat)
    (hdelay : (cbBeh env cb args).delay = some k) :
    invokeCb env st cb args =
      ({ st with trace := st.trace ++ [.call cb args],
                 hookable := applyRegOps st.hookable (cbBeh env cb args).ops,
                 proms := st.proms ++ [.pending []],
                 queue := st.queue ++ [.settleLater k st.proms.length (cbBeh env cb args).ret] },
       .prom st.proms.length) := by
  unfold invokeCb
  simp only [hdelay, newProm]

/-- The synchronous map phase of `parallelCaller`: every callback is
invoked at once, in list order, with the identical argument list; each
asynchronous one gets a fresh pending promise and a countdown job. -/
theorem mapPhase (env : Env V) (args : List V) :
    ∀ (hooks : List Cb) (st : MState V) (acc : List (CallRes V)),
    (∀ j ∈ st.queue, ∃ (k q : Nat) (v : V), j = Job.settleLater k q v ∧ q < st.proms.length) →
    (∀ (i q : Nat), acc[i]? = some (CallRes.prom q) →
      st.proms[q]? = some (Prom.pending []) ∧ q < st.proms.length) →
    (∀ (p : Nat) (rs : List (Reaction V)), st.proms[p]? = some (Prom.pending rs) → rs = []) →
    (hooks.foldl (fun acc hf =>
      let (s, r) := invokeCb env acc.1 hf args
      (s, acc.2 ++ [r])) (st, acc)).1.trace
        = st.trace ++ hooks.map (fun c => Ev.call c args) ∧
    (hooks.foldl (fun acc hf =>
      let (s, r) := invokeCb env acc.1 hf args
      (s, acc.2 ++ [r])) (st, acc)).1.groups = st.groups ∧
    st.proms.length ≤ (hooks.foldl (fun acc hf =>
      let (s, r) := invokeCb env acc.1 hf args
      (s, acc.2 ++ [r])) (st, acc)).1.proms.length ∧
    (hooks.foldl (fun acc hf =>
      let (s, r) := invokeCb env acc.1 hf args
      (s, acc.2 ++ [r])) (st, acc)).2.length = acc.length + hooks.length ∧
    (∀ j ∈ (hooks.foldl (fun acc hf =>
      let (s, r) := invokeCb env acc.1 hf args
      (s, acc.2 ++ [r])) (st, acc)).1.queue,
      ∃ (k q : Nat) (v : V), j = Job.settleLater k q v ∧ q < (hooks.foldl (fun acc hf =>
        let (s, r) := invokeCb env acc.1 hf args
        (s, acc.2 ++ [r])) (st, acc)).1.proms.length) ∧
    (∀ (i q : Nat), (hooks.foldl (fun acc hf =>
      let (s, r) := invokeCb env acc.1 hf args
      (s, acc.2 ++ [r])) (st, acc)).2[i]? = some (CallRes.prom q) →
      (hooks.foldl (fun acc hf =>
        let (s, r) := invokeCb env acc.1 hf args
        (s, acc.2 ++ [r])) (st, acc)).1.proms[q]? = some (Prom.pending []) ∧
      q < (hooks.foldl (fun acc hf =>
        let (s, r) := invokeCb env acc.1 hf args
        (s, acc.2 ++ [r])) (st, acc)).1.proms.length) ∧
    (∀ (p : Nat) (rs : List (Reaction V)), (hooks.foldl (fun acc hf =>
      let (s, r) := invokeCb env acc.1 hf args
      (s, acc.2 ++ [r])) (st, acc)).1.proms[p]? = some (Prom.pending rs) → rs = []) := by
  intro hooks
  induction hooks with
  | nil =>
    intro st acc hque hacc hrs
    exact ⟨by simp, rfl, Nat.le_refl _, by simp, hque, hacc, hrs⟩
  | cons hf rest ih =>
    intro st acc hque hacc hrs
    cases hdelay : (cbBeh env hf args).delay with
    | none =>
      have hinv := invokeCb_sync env st hf args hdelay
      have hfold : (hf :: rest).foldl (fun acc hf =>
          let (s, r) := invokeCb env acc.1 hf args
          (s, acc.2 ++ [r])) (st, acc)
        = rest.foldl (fun acc hf =>
          let (s, r) := invokeCb env acc.1 hf args
          (s, acc.2 ++ [r]))
          ({ st with trace := st.trace ++ [.call hf args],
                     hookable := applyRegOps st.hookable (cbBeh env hf args).ops },
           acc ++ [.val (cbBeh env hf args).ret]) := by
        simp only [List.foldl_cons, hinv]
      rw [hfold]
      obtain ⟨g1, g2, g3, g4, g5, g6, g7⟩ := ih
        { st with trace := st.trace ++ [.call hf args],
                  hookable := applyRegOps st.hookable (cbBeh env hf args).ops }
        (acc ++ [.val (cbBeh env hf args).ret])
        (by intro j hj; exact hque j hj)
        (by
          intro i q hi
          rcases getElem?_append_elim acc _ i _ hi with hi2 | hi2
          · exact hacc i q hi2
          · cases hi2)
        (by intro p rs hp; exact hrs p rs hp)
      refine ⟨?_, g2, g3, ?_, g5, g6, g7⟩
      · rw [g1]
        simp [List.append_assoc]
      · rw [g4]
        simp
        omega
    | some k =>
      have hinv := invokeCb_async env st hf args k hdelay
      have hfold : (hf :: rest).foldl (fun acc hf =>
          let (s, r) := invokeCb env acc.1 hf args
          (s, acc.2 ++ [r])) (st, acc)
        = rest.foldl (fun acc hf =>
          let (s, r) := invokeCb env acc.1 hf args
          (s, acc.2 ++ [r]))
          ({ st with trace := st.trace ++ [.call hf args],
                     hookable := applyRegOps st.hookable (cbBeh env hf args).ops,
                     proms := st.proms ++ [.pending []],
                     queue := st.queue ++ [.settleLater k st.proms.length
                       (cbBeh env hf args).ret] },
           acc ++ [.prom st.proms.length]) := by
        simp only [List.foldl_cons, hinv]
      rw [hfold]
      obtain ⟨g1, g2, g3, g4, g5, g6, g7⟩ := ih
        { st with trace := st.trace ++ [.call hf args],
                  hookable := applyRegOps st.hookable (cbBeh env hf args).ops,
                  proms := st.proms ++ [.pending []],
                  queue := st.queue ++ [.settleLater k st.proms.length
                    (cbBeh env hf args).ret] }
        (acc ++ [.prom st.proms.length])
        (by
          intro j hj
          rcases List.mem_append.mp hj with hj1 | hj2
          · obtain ⟨k2, q2, v2, hje, hqlt⟩ := hque j hj1
            exact ⟨k2, q2, v2, hje, by simp; omega⟩
          · have : j = Job.settleLater k st.proms.length (cbBeh env hf args).ret := by
              simpa using hj2
            exact ⟨k, st.proms.length, (cbBeh env hf args).ret, this, by simp⟩)
        (by
          intro i q hi
          rcases getElem?_append_elim acc _ i _ hi with hi2 | hi2
          · obtain ⟨hq1, hq2⟩ := hacc i q hi2
            constructor
            · show (st.proms ++ [Prom.pending []])[q]? = _
              rw [List.getElem?_append_left hq2]
              exact hq1
            · simp
              omega
          · injection hi2 with hi3
            subst hi3
            constructor
            · simp
            · simp)
        (by
          intro p rs hp
          have hp2 : (st.proms ++ [Prom.pending []])[p]? = some (Prom.pending rs) := hp
          by_cases hpl : p < st.proms.length
          · rw [List.getElem?_append_left hpl] at hp2
            exact hrs p rs hp2
          · rw [List.getElem?_append_right (Nat.le_of_not_lt hpl)] at hp2
            cases hd : p - st.proms.length with
            | zero =>
              rw [hd] at hp2
              injection hp2 with hp3
              injection hp3 with hp4
              exact hp4.symm
            | succ n =>
              rw [hd] at hp2
              simp at hp2)
      refine ⟨?_, g2, ?_, ?_, g5, g6, g7⟩
      · rw [g1]
        simp [List.append_assoc]
      · exact Nat.le_trans (by simp) g3
      · rw [g4]
        simp
        omega

/-- Invariant through `Promise.all`'s registration loop: only countdown
jobs in the queue, reactions only the slots registered so far, the
combined promise pending (or already fulfilled with every slot filled). -/
structure RegInv (st : MState V) (target : Nat) (items : List (CallRes V))
    (slots : List (Option (JVal V))) : Prop where
  groups_eq : st.groups = [⟨slots, target⟩]
  slots_len : slots.length = items.length
  slots_settled : ∀ (i : Nat) (jv : JVal V), slots[i]? = some (some jv) → itemSettled st items i
  target_state : st.proms[target]? = some (.pending [])
    ∨ ∃ v : JVal V, st.proms[target]? = some (.fulfilled v)
  full_target : (∃ v : JVal V, st.proms[target]? = some (.fulfilled v)) →
    ∀ sl ∈ slots, sl.isSome
  queue_sl : ∀ j ∈ st.queue, ∃ (k q : Nat) (v : V), j = Job.settleLater k q v ∧ q ≠ target
  reacts_ok : ∀ (p : Nat) (rs : List (Reaction V)),
    st.proms[p]? = some (.pending rs) → ∀ r ∈ rs, reactOK items p r
  items_prom : ∀ (i q : Nat), items[i]? = some (CallRes.prom q) →
    q ≠ target ∧ ∃ rs, st.proms[q]? = some (.pending rs)

theorem regInv_parCfg (st : MState V) (target : Nat) (items : List (CallRes V))
    (slots : List (Option (JVal V))) (hinv : RegInv st target items slots) :
    ParCfg st target items slots := by
  obtain ⟨hg, hsl, hss, hts, hft, hqs, hro, hip⟩ := hinv
  refine ⟨hg, hsl, hss, hts, hft, fun i q hi => (hip i q hi).1, ?_, hro⟩
  intro j hj
  obtain ⟨k, q, v, rfl, hqt⟩ := hqs j hj
  exact hqt

/-- One registration step of the `Promise.all` loop preserves the
invariant and emits no invocation events. -/
theorem regInv_step (st : MState V) (target : Nat) (items : List (CallRes V))
    (slots : List (Option (JVal V))) (i : Nat) (r : CallRes V)
    (hir : items[i]? = some r)
    (hinv : RegInv st target items slots) :
    ∃ slots2,
      RegInv (match r with
        | .val x => groupFill st 0 i (.v x)
        | .prom q => addReaction st q (.allSlot 0 i)) target items slots2 ∧
      callEvents (match r with
        | .val x => groupFill st 0 i (.v x)
        | .prom q => addReaction st q (.allSlot 0 i)).trace = callEvents st.trace := by
  obtain ⟨hg, hsl, hss, hts, hft, hqs, hro, hip⟩ := hinv
  cases r with
  | val x =>
    show ∃ slots2,
      RegInv (groupFill st 0 i (JVal.v x)) target items slots2 ∧
      callEvents (groupFill st 0 i (JVal.v x)).trace = callEvents st.trace
    rw [groupFill_eq st i (.v x) slots target hg]
    have hslset : ∀ (j : Nat) (jv2 : JVal V),
        (slots.set i (some (JVal.v x)))[j]? = some (some jv2) → itemSettled st items j := by
      intro j jv2 hj
      by_cases hij : i = j
      · subst hij
        unfold itemSettled
        rw [hir]
        trivial
      · rw [List.getElem?_set_ne hij] at hj
        exact hss j jv2 hj
    by_cases hall : ((slots.set i (some (JVal.v x))).all Option.isSome) = true
    · rw [if_pos hall]
      rcases hts with hpend | ⟨w, hful⟩
      · rw [fulfillProm_eq
          { st with groups := [⟨slots.set i (some (JVal.v x)), target⟩] }
          target (JVal.arr ((slots.set i (some (JVal.v x))).map (fun o => o.getD .null)))
          [] hpend]
        have htlt : target < st.proms.length := getElem?_some_lt hpend
        have hmono : ∀ (q : Nat) (w : JVal V),
            st.proms[q]? = some (Prom.fulfilled w) →
            (st.proms.set target (Prom.fulfilled
              (JVal.arr ((slots.set i (some (JVal.v x))).map (fun o => o.getD .null)))))[q]?
              = some (Prom.fulfilled w) := by
          intro q w hw
          by_cases htq : target = q
          · subst htq
            rw [hpend] at hw
            cases hw
          · rw [List.getElem?_set_ne htq]
            exact hw
        refine ⟨slots.set i (some (JVal.v x)), ⟨rfl, by simp [hsl], ?_, ?_, ?_, ?_, ?_, ?_⟩, ?_⟩
        · intro j jv2 hj
          exact itemSettled_mono st _ items j hmono (hslset j jv2 hj)
        · right
          refine ⟨JVal.arr ((slots.set i (some (JVal.v x))).map (fun o => o.getD JVal.null)), ?_⟩
          show (st.proms.set target _)[target]? = _
          rw [List.getElem?_set_self htlt]
        · intro _ sl hsl2
          exact List.all_eq_true.mp hall sl hsl2
        · intro j hj
          simp only [List.append_nil, List.map_nil] at hj
          exact hqs j hj
        · intro p2 rs2 hp2 r2 hr2
          by_cases htq : target = p2
          · subst htq
            have : (st.proms.set target (Prom.fulfilled _))[target]?
                = some (Prom.pending rs2) := hp2
            rw [List.getElem?_set_self htlt] at this
            cases this
          · have : (st.proms.set target _)[p2]? = some (Prom.pending rs2) := hp2
            rw [List.getElem?_set_ne htq] at this
            exact hro p2 rs2 this r2 hr2
        · intro i2 q2 hi2
          obtain ⟨hq2t, rs2, hq2⟩ := hip i2 q2 hi2
          refine ⟨hq2t, rs2, ?_⟩
          show (st.proms.set target _)[q2]? = _
          rw [List.getElem?_set_ne (Ne.symm hq2t)]
          exact hq2
        · exact callEvents_snoc_settled st.trace target _
      · rw [fulfillProm_noop
          { st with groups := [⟨slots.set i (some (JVal.v x)), target⟩] }
          target (JVal.arr ((slots.set i (some (JVal.v x))).map (fun o => o.getD .null)))
          (Or.inr ⟨w, hful⟩)]
        refine ⟨slots.set i (some (JVal.v x)), ⟨rfl, by simp [hsl], hslset,
          Or.inr ⟨w, hful⟩, ?_, hqs, hro, hip⟩, rfl⟩
        intro _ sl hsl2
        exact List.all_eq_true.mp hall sl hsl2
    · rw [if_neg hall]
      refine ⟨slots.set i (some (JVal.v x)), ⟨rfl, by simp [hsl], hslset, hts, ?_,
        hqs, hro, hip⟩, rfl⟩
      intro hex sl hsl2
      rcases List.mem_or_eq_of_mem_set hsl2 with hm | hm
      · exact hft hex sl hm
      · rw [hm]
        rfl
  | prom q =>
    show ∃ slots2,
      RegInv (addReaction st q (Reaction.allSlot 0 i)) target items slots2 ∧
      callEvents (addReaction st q (Reaction.allSlot 0 i)).trace = callEvents st.trace
    obtain ⟨hqt, rs, hq⟩ := hip i q hir
    have hqlt : q < st.proms.length := getElem?_some_lt hq
    have haddr : addReaction st q (.allSlot 0 i)
        = { st with proms := st.proms.set q (.pending (rs ++ [.allSlot 0 i])) } := by
      unfold addReaction
      rw [hq]
    rw [haddr]
    have hmono : ∀ (q2 : Nat) (w : JVal V),
        st.proms[q2]? = some (Prom.fulfilled w) →
        (st.proms.set q (Prom.pending (rs ++ [.allSlot 0 i])))[q2]?
          = some (Prom.fulfilled w) := by
      intro q2 w hw
      by_cases hqq : q = q2
      · subst hqq
        rw [hq] at hw
        cases hw
      · rw [List.getElem?_set_ne hqq]
        exact hw
    refine ⟨slots, ⟨hg, hsl, ?_, ?_, ?_, hqs, ?_, ?_⟩, rfl⟩
    · intro j jv2 hj
      exact itemSettled_mono st _ items j hmono (hss j jv2 hj)
    · rcases hts with hpend | ⟨w, hful⟩
      · left
        show (st.proms.set q _)[target]? = _
        rw [List.getElem?_set_ne hqt]
        exact hpend
      · right
        exact ⟨w, hmono target w hful⟩
    · intro hex
      obtain ⟨w, hw⟩ := hex
      apply hft
      refine ⟨w, ?_⟩
      have hw2 : (st.proms.set q (Prom.pending (rs ++ [.allSlot 0 i])))[target]?
          = some (Prom.fulfilled w) := hw
      rw [List.getElem?_set_ne hqt] at hw2
      exact hw2
    · intro p2 rs2 hp2 r2 hr2
      by_cases hqp : q = p2
      · subst hqp
        have : (st.proms.set q (Prom.pending (rs ++ [.allSlot 0 i])))[q]?
            = some (Prom.pending rs2) := hp2
        rw [List.getElem?_set_self hqlt] at this
        injection this with this2
        injection this2 with this3
        rw [← this3] at hr2
        rcases List.mem_append.mp hr2 with hr3 | hr3
        · exact hro q rs hq r2 hr3
        · have : r2 = Reaction.allSlot 0 i := by simpa using hr3
          rw [this]
          exact ⟨rfl, hir⟩
      · have : (st.proms.set q _)[p2]? = some (Prom.pending rs2) := hp2
        rw [List.getElem?_set_ne hqp] at this
        exact hro p2 rs2 this r2 hr2
    · intro i2 q2 hi2
      obtain ⟨hq2t, rs2, hq2⟩ := hip i2 q2 hi2
      by_cases hqq : q = q2
      · subst hqq
        refine ⟨hq2t, rs ++ [.allSlot 0 i], ?_⟩
        show (st.proms.set q _)[q]? = _
        rw [List.getElem?_set_self hqlt]
      · refine ⟨hq2t, rs2, ?_⟩
        show (st.proms.set q _)[q2]? = _
        rw [List.getElem?_set_ne hqq]
        exact hq2

theorem zip_range_spec (items : List (CallRes V)) :
    ∀ pr ∈ (List.range items.length).zip items, items[pr.1]? = some pr.2 := by
  intro pr hpr
  obtain ⟨k, hk⟩ := List.mem_iff_getElem?.mp hpr
  obtain ⟨hk1, hk2⟩ := List.getElem?_zip_eq_some.mp hk
  have hkl : k < items.length := getElem?_some_lt hk2
  rw [List.getElem?_range hkl] at hk1
  injection hk1 with hk1
  rw [← hk1]
  exact hk2

/-- The registration loop of `Promise.all` preserves the invariant. -/
theorem regFold (target : Nat) (items : List (CallRes V)) :
    ∀ (pairs : List (Nat × CallRes V)) (st : MState V) (slots : List (Option (JVal V))),
    (∀ pr ∈ pairs, items[pr.1]? = some pr.2) →
    RegInv st target items slots →
    ∃ slots2,
      RegInv (pairs.foldl (fun acc gi =>
        match gi.2 with
        | .val x => groupFill acc 0 gi.1 (.v x)
        | .prom q => addReaction acc q (.allSlot 0 gi.1)) st) target items slots2 ∧
      callEvents (pairs.foldl (fun acc gi =>
        match gi.2 with
        | .val x => groupFill acc 0 gi.1 (.v x)
        | .prom q => addReaction acc q (.allSlot 0 gi.1)) st).trace
        = callEvents st.trace := by
  intro pairs
  induction pairs with
  | nil =>
    intro st slots _ hinv
    exact ⟨slots, hinv, rfl⟩
  | cons pr rest ih =>
    intro st slots hpr hinv
    obtain ⟨pi, r⟩ := pr
    simp only [List.foldl_cons]
    obtain ⟨slots2, hinv2, htr2⟩ := regInv_step st target items slots pi r
      (hpr (pi, r) (List.mem_cons_self _ _)) hinv
    obtain ⟨slots3, hinv3, htr3⟩ := ih _ slots2
      (fun pr2 hpr2 => hpr pr2 (List.mem_cons_of_mem _ hpr2)) hinv2
    exact ⟨slots3, hinv3, htr3.trans htr2⟩

/-- `promiseAll` over the results of the map phase establishes the
parallel configuration; no invocation event is emitted. -/
theorem promiseAll_cfg (st : MState V) (items : List (CallRes V))
    (hgr : st.groups = [])
    (hque : ∀ j ∈ st.queue, ∃ (k q : Nat) (v : V),
      j = Job.settleLater k q v ∧ q < st.proms.length)
    (hitems : ∀ (i q : Nat), items[i]? = some (CallRes.prom q) →
      st.proms[q]? = some (Prom.pending []) ∧ q < st.proms.length)
    (hrs : ∀ (p : Nat) (rs : List (Reaction V)),
      st.proms[p]? = some (Prom.pending rs) → rs = []) :
    (promiseAll st items).2 = st.proms.length ∧
    ∃ slots, ParCfg (promiseAll st items).1 st.proms.length items slots ∧
      callEvents (promiseAll st items).1.trace = callEvents st.trace := by
  have hinit : RegInv
      ({ st with proms := st.proms ++ [.pending []],
                 groups := [⟨items.map (fun _ => none), st.proms.length⟩] } : MState V)
      st.proms.length items (items.map (fun _ => none)) := by
    refine ⟨rfl, by simp, ?_, ?_, ?_, ?_, ?_, ?_⟩
    · intro i jv hi
      rw [List.getElem?_map] at hi
      cases hit : items[i]? with
      | none => rw [hit] at hi; cases hi
      | some r => rw [hit] at hi; cases hi
    · left
      show (st.proms ++ [Prom.pending []])[st.proms.length]? = _
      simp
    · intro hex
      obtain ⟨v, hv⟩ := hex
      have : (st.proms ++ [Prom.pending []])[st.proms.length]?
          = some (Prom.fulfilled v) := hv
      simp at this
    · intro j hj
      obtain ⟨k, q, v, hje, hql⟩ := hque j hj
      exact ⟨k, q, v, hje, by omega⟩
    · intro p rs hp
      have hp2 : (st.proms ++ [Prom.pending []])[p]? = some (Prom.pending rs) := hp
      by_cases hpl : p < st.proms.length
      · rw [List.getElem?_append_left hpl] at hp2
        have := hrs p rs hp2
        rw [this]
        intro r hr
        cases hr
      · rw [List.getElem?_append_right (Nat.le_of_not_lt hpl)] at hp2
        cases hd : p - st.proms.length with
        | zero =>
          rw [hd] at hp2
          injection hp2 with hp3
          injection hp3 with hp4
          rw [← hp4]
          intro r hr
          cases hr
        | succ n =>
          rw [hd] at hp2
          simp at hp2
    · intro i q hi
      obtain ⟨hq1, hq2⟩ := hitems i q hi
      refine ⟨by omega, [], ?_⟩
      show (st.proms ++ [Prom.pending []])[q]? = _
      rw [List.getElem?_append_left hq2]
      exact hq1
  obtain ⟨slots2, hinv2, htr2⟩ := regFold st.proms.length items
    ((List.range items.length).zip items)
    ({ st with proms := st.proms ++ [.pending []],
               groups := [⟨items.map (fun _ => none), st.proms.length⟩] } : MState V)
    (items.map (fun _ => none)) (zip_range_spec items) hinit
  have hP2 : (promiseAll st items).2 = st.proms.length := rfl
  have hP1 : (promiseAll st items).1
      = (match (((List.range items.length).zip items).foldl (fun acc gi =>
      match gi.2 with
      | .val x => groupFill acc 0 gi.1 (.v x)
      | .prom q => addReaction acc q (.allSlot 0 gi.1))
      ({ st with proms := st.proms ++ [.pending []],
                 groups := [⟨items.map (fun _ => none), st.proms.length⟩] } : MState V)).groups[0]? with
         | some gr =>
           if gr.slots.all Option.isSome then
             fulfillProm (((List.range items.length).zip items).foldl (fun acc gi =>
      match gi.2 with
      | .val x => groupFill acc 0 gi.1 (.v x)
      | .prom q => addReaction acc q (.allSlot 0 gi.1))
      ({ st with proms := st.proms ++ [.pending []],
                 groups := [⟨items.map (fun _ => none), st.proms.length⟩] } : MState V)) gr.target
               (.arr (gr.slots.map (fun o => o.getD .null)))
           else (((List.range items.length).zip items).foldl (fun acc gi =>
      match gi.2 with
      | .val x => groupFill acc 0 gi.1 (.v x)
      | .prom q => addReaction acc q (.allSlot 0 gi.1))
      ({ st with proms := st.proms ++ [.pending []],
                 groups := [⟨items.map (fun _ => none), st.proms.length⟩] } : MState V))
         | none => (((List.range items.length).zip items).foldl (fun acc gi =>
      match gi.2 with
      | .val x => groupFill acc 0 gi.1 (.v x)
      | .prom q => addReaction acc q (.allSlot 0 gi.1))
      ({ st with proms := st.proms ++ [.pending []],
                 groups := [⟨items.map (fun _ => none), st.proms.length⟩] } : MState V))) := by
    unfold promiseAll
    simp only [hgr, List.length_nil, newProm, List.nil_append]
  refine ⟨hP2, ?_⟩
  rw [hP1]
  set st4 : MState V := ((List.range items.length).zip items).foldl (fun acc gi =>
      match gi.2 with
      | .val x => groupFill acc 0 gi.1 (.v x)
      | .prom q => addReaction acc q (.allSlot 0 gi.1))
      ({ st with proms := st.proms ++ [.pending []],
                 groups := [⟨items.map (fun _ => none), st.proms.length⟩] } : MState V) with hst4
  have hg0 : st4.groups[0]? = some ⟨slots2, st.proms.length⟩ := by
    rw [hinv2.groups_eq]
    rfl
  have htlen : slots2.length = items.length := hinv2.slots_len
  by_cases hall : (slots2.all Option.isSome) = true
  · have hfinal : (match st4.groups[0]? with
        | some gr =>
          if gr.slots.all Option.isSome then
            fulfillProm st4 gr.target (.arr (gr.slots.map (fun o => o.getD .null)))
          else st4
        | none => st4)
        = fulfillProm st4 st.proms.length (.arr (slots2.map (fun o => o.getD .null))) := by
      rw [hg0]
      simp only [hall, if_true]
    rw [hfinal]
    rcases hts4 : hinv2.target_state with hpend | ⟨w, hful⟩
    · rw [fulfillProm_eq st4 st.proms.length _ [] hpend]
      have htlt : st.proms.length < st4.proms.length := getElem?_some_lt hpend
      have hmono : ∀ (q : Nat) (w : JVal V),
          st4.proms[q]? = some (Prom.fulfilled w) →
          (st4.proms.set st.proms.length (Prom.fulfilled
            (JVal.arr (slots2.map (fun o => o.getD .null)))))[q]?
            = some (Prom.fulfilled w) := by
        intro q w hw
        by_cases htq : st.proms.length = q
        · subst htq
          rw [hpend] at hw
          cases hw
        · rw [List.getElem?_set_ne htq]
          exact hw
      refine ⟨slots2, ⟨hinv2.groups_eq, htlen, ?_, ?_, ?_, ?_, ?_, ?_⟩, ?_⟩
      · intro i jv hi
        exact itemSettled_mono st4 _ items i hmono (hinv2.slots_settled i jv hi)
      · right
        refine ⟨JVal.arr (slots2.map (fun o => o.getD JVal.null)), ?_⟩
        show (st4.proms.set st.proms.length _)[st.proms.length]? = _
        rw [List.getElem?_set_self htlt]
      · intro _ sl hsl2
        exact List.all_eq_true.mp hall sl hsl2
      · intro i q hi
        exact (hinv2.items_prom i q hi).1
      · intro j hj
        simp only [List.append_nil, List.map_nil] at hj
        obtain ⟨k, q, v, rfl, hqt⟩ := hinv2.queue_sl j hj
        exact hqt
      · intro p rs hp r hr
        by_cases htq : st.proms.length = p
        · subst htq
          have : (st4.proms.set st.proms.length (Prom.fulfilled _))[st.proms.length]?
              = some (Prom.pending rs) := hp
          rw [List.getElem?_set_self htlt] at this
          cases this
        · have : (st4.proms.set st.proms.length _)[p]? = some (Prom.pending rs) := hp
          rw [List.getElem?_set_ne htq] at this
          exact hinv2.reacts_ok p rs this r hr
      · show callEvents (st4.trace ++ [Ev.settled st.proms.length _]) = _
        rw [callEvents_snoc_settled, htr2]
    · rw [fulfillProm_noop st4 st.proms.length _ (Or.inr ⟨w, hful⟩)]
      refine ⟨slots2, regInv_parCfg st4 st.proms.length items slots2 hinv2, ?_⟩
      rw [htr2]
  · have hfinal : (match st4.groups[0]? with
        | some gr =>
          if gr.slots.all Option.isSome then
            fulfillProm st4 gr.target (.arr (gr.slots.map (fun o => o.getD .null)))
          else st4
        | none => st4)
        = st4 := by
      rw [hg0]
      simp only [Bool.not_eq_true] at hall
      simp only [hall]
      rfl
    rw [hfinal]
    refine ⟨slots2, regInv_parCfg st4 st.proms.length items slots2 hinv2, ?_⟩
    rw [htr2]

theorem callEvents_calls (cs : List Cb) (args : List V) :
    callEvents (cs.map (fun c => Ev.call c args)) = cs.map (fun c => Ev.call c args) := by
  induction cs with
  | nil => rfl
  | cons c r ih =>
    simp only [List.map_cons, callEvents, ih]

/-- The item list produced by `parallelCaller`'s synchronous map phase:
`hooks.map(hook => hook.apply(undefined, args))`. -/
def parallelItems (env : Env V) (st : MState V) (hooks : List Cb) (args : List V) :
    List (CallRes V) :=
  (hooks.foldl (fun acc hf =>
    let (s, r) := invokeCb env acc.1 hf args
    (s, acc.2 ++ [r])) (st, ([] : List (CallRes V)))).2

/-- `parallelCaller` from a quiescent state: one call event per hook, in
list order, with the shared argument list, and the parallel configuration
holds for the returned combined promise over the map phase's item list. -/
theorem parallelCaller_cfg (env : Env V) (args : List V) (st : MState V) (hooks : List Cb)
    (hgr : st.groups = []) (hq : st.queue = [])
    (hrs : ∀ (p : Nat) (rs : List (Reaction V)),
      st.proms[p]? = some (Prom.pending rs) → rs = []) :
    callEvents (parallelCaller env st hooks args).1.trace
        = callEvents st.trace ++ hooks.map (fun c => Ev.call c args) ∧
    (parallelItems env st hooks args).length = hooks.length ∧
    ∃ slots, ParCfg (parallelCaller env st hooks args).1
        (parallelCaller env st hooks args).2 (parallelItems env st hooks args) slots := by
  obtain ⟨g1, g2, g3, g4, g5, g6, g7⟩ := mapPhase env args hooks st []
    (by intro j hj; rw [hq] at hj; cases hj)
    (by intro i q hi; rw [List.getElem?_nil] at hi; cases hi)
    hrs
  have hpc : parallelCaller env st hooks args
      = promiseAll (hooks.foldl (fun acc hf =>
          let (s, r) := invokeCb env acc.1 hf args
          (s, acc.2 ++ [r])) (st, ([] : List (CallRes V)))).1
        (hooks.foldl (fun acc hf =>
          let (s, r) := invokeCb env acc.1 hf args
          (s, acc.2 ++ [r])) (st, ([] : List (CallRes V)))).2 := rfl
  have hpi : parallelItems env st hooks args
      = (hooks.foldl (fun acc hf =>
          let (s, r) := invokeCb env acc.1 hf args
          (s, acc.2 ++ [r])) (st, ([] : List (CallRes V)))).2 := rfl
  have hgr2 : (hooks.foldl (fun acc hf =>
      let (s, r) := invokeCb env acc.1 hf args
      (s, acc.2 ++ [r])) (st, ([] : List (CallRes V)))).1.groups = [] := by
    rw [g2, hgr]
  obtain ⟨p2, slots, hcfg, htrP⟩ := promiseAll_cfg _ _ hgr2 g5 g6 g7
  refine ⟨?_, ?_, slots, ?_⟩
  · rw [hpc, htrP, g1, callEvents_append, callEvents_calls]
  · rw [hpi, g4]
    simp
  · rw [hpc, hpi, p2]
    exact hcfg

/-- C4: the parallel caller invokes every callback in the list, started
in list order during the synchronous map phase with the identical
unmodified argument list, all before any result is awaited (no further
invocation happens at any later point of the run); it produces one result
per callback and returns a single combined promise that is fulfilled only
once every callback's own result has settled; the serial caller likewise
passes the identical argument list to every callback. -/
theorem C4_parallel_caller (env : Env V) (args : List V) (st : MState V) (hooks : List Cb)
    (hgr : st.groups = []) (hq : st.queue = [])
    (hrs : ∀ (p : Nat) (rs : List (Reaction V)),
      st.proms[p]? = some (Prom.pending rs) → rs = []) :
    (∀ fuel : Nat,
      callEvents (run env fuel (parallelCaller env st hooks args).1).trace
        = callEvents st.trace ++ hooks.map (fun c => Ev.call c args)) ∧
    (parallelItems env st hooks args).length = hooks.length ∧
    (∀ (fuel : Nat) (v : JVal V),
      (run env fuel (parallelCaller env st hooks args).1).proms[
          (parallelCaller env st hooks args).2]? = some (Prom.fulfilled v) →
      ∀ i : Nat, itemSettled (run env fuel (parallelCaller env st hooks args).1)
        (parallelItems env st hooks args) i) ∧
    (∀ (st2 : MState V) (t : Cb) (ts : List Cb), st2.queue = [] →
      callEvents (run env (chainFuel env args (t :: ts))
          (serialCaller st2 (t :: ts) args).1).trace
        = callEvents st2.trace ++ (t :: ts).map (fun c => Ev.call c args)) := by
  obtain ⟨h1, h2, slots, hcfg⟩ := parallelCaller_cfg env args st hooks hgr hq hrs
  refine ⟨?_, h2, ?_, ?_⟩
  · intro fuel
    obtain ⟨slots2, hcfg2, htr2⟩ := parCfg_run env fuel (parallelCaller env st hooks args).1
      (parallelCaller env st hooks args).2 (parallelItems env st hooks args) slots hcfg
    rw [htr2, h1]
  · intro fuel v hful i
    obtain ⟨slots2, hcfg2, htr2⟩ := parCfg_run env fuel (parallelCaller env st hooks args).1
      (parallelCaller env st hooks args).2 (parallelItems env st hooks args) slots hcfg
    exact parCfg_settled _ _ _ slots2 hcfg2 v hful i
  · intro st2 t ts hq2
    have hsc : serialCaller st2 (t :: ts) args = serial st2 (t :: ts) args := rfl
    obtain ⟨_, s1, _, _, _, _⟩ := serial_run env st2 args t ts hq2
    rw [hsc, s1, callEvents_append]
    unfold dispatchSim
    rw [chainSim_calls]
    have hm : ((List.range' (st2.proms.length + 2) ts.length).zip ts).map Prod.snd = ts := by
      apply List.map_snd_zip
      simp
    rw [hm]

/-- Witness for C4 at a two-callback instance over `Nat`, from the fresh
machine. -/
theorem C4_witness :
    (mkM emptyHookable : MState Nat).groups = [] ∧
    (mkM emptyHookable : MState Nat).queue = [] ∧
    (∀ (p : Nat) (rs : List (Reaction Nat)),
      (mkM emptyHookable : MState Nat).proms[p]? = some (Prom.pending rs) → rs = []) ∧
    ((∀ fuel : Nat,
      callEvents (run (fun i _ => (⟨[], none, i⟩ : Beh Nat)) fuel
          (parallelCaller (fun i _ => (⟨[], none, i⟩ : Beh Nat))
            (mkM emptyHookable) [Cb.base 0, Cb.base 1] [7]).1).trace
        = callEvents (mkM emptyHookable : MState Nat).trace
          ++ [Cb.base 0, Cb.base 1].map (fun c => Ev.call c [7])) ∧
    (parallelItems (fun i _ => (⟨[], none, i⟩ : Beh Nat))
        (mkM emptyHookable) [Cb.base 0, Cb.base 1] [7]).length
      = ([Cb.base 0, Cb.base 1] : List Cb).length ∧
    (∀ (fuel : Nat) (v : JVal Nat),
      (run (fun i _ => (⟨[], none, i⟩ : Beh Nat)) fuel
          (parallelCaller (fun i _ => (⟨[], none, i⟩ : Beh Nat))
            (mkM emptyHookable) [Cb.base 0, Cb.base 1] [7]).1).proms[
          (parallelCaller (fun i _ => (⟨[], none, i⟩ : Beh Nat))
            (mkM emptyHookable) [Cb.base 0, Cb.base 1] [7]).2]?
        = some (Prom.fulfilled v) →
      ∀ i : Nat, itemSettled (run (fun i _ => (⟨[], none, i⟩ : Beh Nat)) fuel
          (parallelCaller (fun i _ => (⟨[], none, i⟩ : Beh Nat))
            (mkM emptyHookable) [Cb.base 0, Cb.base 1] [7]).1)
        (parallelItems (fun i _ => (⟨[], none, i⟩ : Beh Nat))
          (mkM emptyHookable) [Cb.base 0, Cb.base 1] [7]) i) ∧
    (∀ (st2 : MState Nat) (t : Cb) (ts : List Cb), st2.queue = [] →
      callEvents (run (fun i _ => (⟨[], none, i⟩ : Beh Nat))
          (chainFuel (fun i _ => (⟨[], none, i⟩ : Beh Nat)) [7] (t :: ts))
          (serialCaller st2 (t :: ts) [7]).1).trace
        = callEvents st2.trace ++ (t :: ts).map (fun c => Ev.call c [7]))) :=
  ⟨rfl, rfl, by intro p rs hp; simp [mkM] at hp,
   C4_parallel_caller (fun i _ => (⟨[], none, i⟩ : Beh Nat)) [7] (mkM emptyHookable)
     [Cb.base 0, Cb.base 1] rfl rfl (by intro p rs hp; simp [mkM] at hp)⟩

end Hable
